import Mathlib

/-!
# MutexShootout: the LRU cache of `lru_cache.hpp`

A shallow embedding of `shootout::LruCache<Key, Val, Mutex, Hash, Equals>` and of the
`boost::bimap<unordered_set_of<Key>, list_of<Val>>` operations it calls.

* The bimap is the list of its relations `(key, val)` in the order of the right
  (`list_of`) view: index `0` is `right.begin()`, the most recently used end.
* An iterator is a position in that list; `end()` of the left view is `none`.
  `project_right` keeps the position, since both views range over the same relations.
* `assert` is checked: an operation whose assertion fails, or which steps an iterator
  before `begin()`, has no result (`none`). `LruCache.ctor_build` gives the constructor for
  both builds, with and without `NDEBUG`.
* `size_t` values are natural numbers; the code only compares them.
* The members are first given on the pair of `capacity_` and `container_` alone
  (`LruCache`), as one thread runs them. `Locked` adds the member `mutex_` for a `Mutex`
  parameter; `Running` gives each member again with `std::lock_guard` around its body and
  records every call of `lock`, of `unlock` and on the container as it is made.
* `populate_cache` and `do_gets` are the two driver functions of `main.cpp`.
-/

namespace shootout

variable {Key Val : Type}

/-- Relations of the bimap in right-view order, most recently used first. -/
abbrev Container (Key Val : Type) := List (Key × Val)

namespace Container

/-- The call `left.find(key)`: position of the first relation whose left key equals `key`,
or `none` for `left.end()`. -/
def left_find [DecidableEq Key] : Container Key Val → Key → Option Nat
  | [], _ => none
  | e :: es, key =>
    if e.1 = key then some 0
    else match left_find es key with
      | none => none
      | some i => some (i + 1)

/-- The call `size()`. -/
def size (m : Container Key Val) : Nat := m.length

/-- The call `right.erase(pos)`: removes the relation at `pos` and returns the position of the
relation that followed it, which is `pos` in the new list (`right.end()` when none followed). -/
def right_erase (m : Container Key Val) (pos : Nat) : Container Key Val × Nat :=
  (m.eraseIdx pos, pos)

/-- The position `right.end()`. -/
def right_end (m : Container Key Val) : Nat := m.length

/-- The call `right.push_front({val, key})`: the relation goes to the front, unless the
left view (a set of unique keys) already holds `key`, in which case nothing is inserted. -/
def right_push_front [DecidableEq Key] (m : Container Key Val) (val : Val) (key : Key) :
    Container Key Val :=
  match left_find m key with
  | none => (key, val) :: m
  | some _ => m

/-- The assignment `left_iter->second = val` at position `pos`. -/
def assign_second (m : Container Key Val) (pos : Nat) (val : Val) : Container Key Val :=
  match m[pos]? with
  | some e => m.set pos (e.1, val)
  | none => m

/-- The call `right.relocate(right.begin(), pos)`: the relation at `pos` is moved in front of
the first one; the others keep their order. -/
def right_relocate_begin (m : Container Key Val) (pos : Nat) : Container Key Val :=
  match m[pos]? with
  | some e => e :: m.eraseIdx pos
  | none => m

/-- The call `left.erase(key)`: removes every relation whose left key equals `key` and returns
how many were removed. -/
def left_erase [DecidableEq Key] (m : Container Key Val) (key : Key) : Container Key Val × Nat :=
  (m.filter (fun e => decide (e.1 ≠ key)), m.countP (fun e => decide (e.1 = key)))

/-- The call `clear()`. -/
def clear (_m : Container Key Val) : Container Key Val := []

end Container

/-- State of an `LruCache`: the private members `capacity_` and `container_`. -/
structure LruCache (Key Val : Type) where
  capacity_ : Nat
  container_ : Container Key Val
deriving DecidableEq, Repr

namespace LruCache

/-- The constructor `LruCache(size_t capacity)` in either build. With `NDEBUG` defined the
macro `assert(capacity > 0)` expands to nothing and the cache is constructed for every
capacity; without it the assertion is checked and the constructor has no result for
capacity 0. -/
def ctor_build (NDEBUG : Bool) (capacity : Nat) : Option (LruCache Key Val) :=
  if NDEBUG then some { capacity_ := capacity, container_ := [] }
  else if 0 < capacity then some { capacity_ := capacity, container_ := [] } else none

/-- The constructor `LruCache(size_t capacity)` in the build that checks `assert`, the build
for which the members below are given. -/
def ctor (capacity : Nat) : Option (LruCache Key Val) :=
  ctor_build false capacity

/-- The member `set(key, val)`. -/
def set [DecidableEq Key] (s : LruCache Key Val) (key : Key) (val : Val) :
    Option (LruCache Key Val) :=
  match s.container_.left_find key with
  | none =>
    -- Adding a new item to the front of the container.
    if s.container_.size = s.capacity_ then
      -- `--container_.right.end()` needs a relation in front of `end()`
      match s.container_.right_end with
      | 0 => none
      | last + 1 =>
        let r := s.container_.right_erase last
        if r.2 = r.1.right_end then
          some { s with container_ := r.1.right_push_front val key }
        else none
    else
      some { s with container_ := s.container_.right_push_front val key }
  | some left_iter =>
    -- Item with this key exists.
    let m := s.container_.assign_second left_iter val
    some { s with container_ := m.right_relocate_begin left_iter }

/-- The member `get(key)`: the new state and the returned optional. -/
def get [DecidableEq Key] (s : LruCache Key Val) (key : Key) : LruCache Key Val × Option Val :=
  match s.container_.left_find key with
  | some left_iter =>
    let m := s.container_.right_relocate_begin left_iter
    -- `left_iter` still designates the relocated relation, now the first one
    ({ s with container_ := m }, (m[0]?).map Prod.snd)
  | none => (s, none)

/-- The member `erase(key)`, with its `assert(elements_erased < 2)`. -/
def erase [DecidableEq Key] (s : LruCache Key Val) (key : Key) :
    Option (LruCache Key Val × Bool) :=
  let r := s.container_.left_erase key
  if r.2 < 2 then some ({ s with container_ := r.1 }, decide (r.2 ≠ 0)) else none

/-- The member `clear()`. -/
def clear (s : LruCache Key Val) : LruCache Key Val :=
  { s with container_ := s.container_.clear }

end LruCache

/-- One call on a cache. -/
inductive Op (Key Val : Type) where
  | set (key : Key) (val : Val)
  | get (key : Key)
  | erase (key : Key)
  | clear
deriving DecidableEq, Repr

/-- What a call returns. -/
inductive Res (Val : Type) where
  | unit
  | value (o : Option Val)
  | erased (b : Bool)
deriving DecidableEq, Repr

/-- Performs one call. -/
def step [DecidableEq Key] (s : LruCache Key Val) : Op Key Val → Option (LruCache Key Val × Res Val)
  | .set key val =>
    match s.set key val with
    | some s' => some (s', .unit)
    | none => none
  | .get key => some ((s.get key).1, .value (s.get key).2)
  | .erase key =>
    match s.erase key with
    | some (s', b) => some (s', .erased b)
    | none => none
  | .clear => some (s.clear, .unit)

/-- Performs the calls in order from state `s`; returns the last state and the trace of calls
with their results. -/
def run [DecidableEq Key] (s : LruCache Key Val) :
    List (Op Key Val) → Option (LruCache Key Val × List (Op Key Val × Res Val))
  | [] => some (s, [])
  | op :: ops =>
    match step s op with
    | none => none
    | some (s', r) =>
      match run s' ops with
      | none => none
      | some (s'', tr) => some (s'', (op, r) :: tr)

/-- Constructs a cache of the given capacity and performs the calls on it. -/
def exec [DecidableEq Key] (capacity : Nat) (ops : List (Op Key Val)) :
    Option (LruCache Key Val × List (Op Key Val × Res Val)) :=
  match (LruCache.ctor capacity : Option (LruCache Key Val)) with
  | none => none
  | some s => run s ops

/-- A state some sequence of calls reaches from the newly constructed cache. -/
def Reachable [DecidableEq Key] (capacity : Nat) (s : LruCache Key Val) : Prop :=
  ∃ ops tr, exec capacity ops = some (s, tr)

/-- The key has a relation in the container. -/
def resident (s : LruCache Key Val) (key : Key) : Prop :=
  ∃ val, (key, val) ∈ s.container_

/-- Whether the traced call touched `key`: a `set` on it, or a `get` that found it. -/
def accessed [DecidableEq Key] (key : Key) : Op Key Val × Res Val → Bool
  | (.set k _, _) => decide (k = key)
  | (.get k, .value (some _)) => decide (k = key)
  | _ => false

/-- Time of the last access to `key` in a trace listed newest call first; calls are numbered
from 1 and 0 means the key was never accessed. -/
def lastAccessRev [DecidableEq Key] (key : Key) : List (Op Key Val × Res Val) → Nat
  | [] => 0
  | x :: older => if accessed key x then older.length + 1 else lastAccessRev key older

/-- Time of the last access to `key` in a trace. -/
def lastAccess [DecidableEq Key] (tr : List (Op Key Val × Res Val)) (key : Key) : Nat :=
  lastAccessRev key tr.reverse

/-- Positive capacity, at most `capacity_` relations, no key twice. -/
structure Inv (s : LruCache Key Val) : Prop where
  cap_pos : 0 < s.capacity_
  size_le : s.container_.length ≤ s.capacity_
  keys_nodup : (s.container_.map Prod.fst).Nodup

/-- The container lists its relations from the latest access time to the earliest, and each
of its keys has an access time. -/
def SortedBy (f : Key → Nat) (m : Container Key Val) : Prop :=
  m.Pairwise (fun a b => f b.1 < f a.1) ∧ ∀ e ∈ m, 0 < f e.1

/-! ### The benchmark driver of `main.cpp` -/

/-- The function `populate_cache(lru_cache, keys)`: one `set` per key of `keys`, in order. Each
call is given a newly made payload, an array filled with `'x'`; `payload` stands for it. -/
def populate_cache [DecidableEq Key] (lru_cache : LruCache Key Val) (payload : Val) :
    List Key → Option (LruCache Key Val)
  | [] => some lru_cache
  | key :: keys =>
    match lru_cache.set key payload with
    | none => none
    | some s => populate_cache s payload keys

/-- The loop of `do_gets` from counter `i` with `remaining` rounds to go: `get` of
`keys[i % keys.size()]` and `assert(result)`. There is no result when the assertion fails or
`keys` is empty (remainder by zero). -/
def do_gets_loop [DecidableEq Key] (keys : List Key) (lru_cache : LruCache Key Val) (i : Nat) :
    (remaining : Nat) → Option (LruCache Key Val)
  | 0 => some lru_cache
  | remaining + 1 =>
    if keys.length = 0 then none
    else
      match keys[i % keys.length]? with
      | none => none
      | some key =>
        let result := lru_cache.get key
        if result.2.isSome then do_gets_loop keys result.1 (i + 1) remaining else none

/-- The function `do_gets(keys, lru_cache, op_count)`. -/
def do_gets [DecidableEq Key] (keys : List Key) (lru_cache : LruCache Key Val) (op_count : Nat) :
    Option (LruCache Key Val) :=
  do_gets_loop keys lru_cache 0 op_count

/-! ### Values a trace has set -/

/-- Value of the latest `set` on `key` in a trace listed newest call first; `none` when there
is no such `set` or an `erase` of `key` or a `clear` came after it. -/
def lastSetRev [DecidableEq Key] (key : Key) : List (Op Key Val × Res Val) → Option Val
  | [] => none
  | (.set k v, _) :: older => if k = key then some v else lastSetRev key older
  | (.erase k, _) :: older => if k = key then none else lastSetRev key older
  | (.clear, _) :: _ => none
  | (.get _, _) :: older => lastSetRev key older

/-- Value of the latest `set` on `key` in a trace, if no `erase` of `key` or `clear` follows
it. -/
def lastSet [DecidableEq Key] (tr : List (Op Key Val × Res Val)) (key : Key) : Option Val :=
  lastSetRev key tr.reverse

/-! ### The `Mutex` parameter and `std::lock_guard` -/

/-- The `Mutex` template parameter: a lockable object as `std::lock_guard<Mutex>` uses it and
as the one thread that calls the cache sees it. `init` is the object after its default
constructor; `lock` and `unlock` have no result (`none`) where the call would not return or is
undefined. -/
structure Mutex where
  State : Type
  init : State
  lock : State → Option State
  unlock : State → Option State

/-- The lock `boost::null_mutex` that `main` uses for `nolocks`: both calls do nothing. -/
def null_mutex : Mutex :=
  { State := Unit, init := (), lock := fun _ => some (), unlock := fun _ => some () }

/-- The locks `std::mutex` and `boost::mutex`: a flag that is set while the mutex is owned.
Locking a mutex the thread owns, and unlocking one it does not own, have no result. -/
def std_mutex : Mutex :=
  { State := Bool
    init := false
    lock := fun owned => if owned then none else some true
    unlock := fun owned => if owned then some false else none }

/-- The lock `cs_mutex<SpinCount>` of `alt_mutex.hpp`: `lock` enters and `unlock` leaves a
critical section, which counts how often its owner entered it. `SpinCount` only sets how long
a waiting thread spins. -/
def cs_mutex (_SpinCount : Nat) : Mutex :=
  { State := Nat
    init := 0
    lock := fun entered => some (entered + 1)
    unlock := fun entered =>
      match entered with
      | 0 => none
      | n + 1 => some n }

/-- The lock `srw_mutex` of `alt_mutex.hpp`: a slim reader/writer lock taken in exclusive
mode, a flag that is set while it is owned. -/
def srw_mutex : Mutex :=
  { State := Bool
    init := false
    lock := fun owned => if owned then none else some true
    unlock := fun owned => if owned then some false else none }

/-- A lock that a thread can take when it is free and that is free again once released. -/
def Mutex.Lawful (M : Mutex) : Prop :=
  ∃ owned, M.lock M.init = some owned ∧ M.unlock owned = some M.init

/-- What a member call does, in order: a call of `mutex_.lock()` that returned, a call on
`container_`, a call of `mutex_.unlock()` that returned. -/
inductive Event where
  | lock
  | access
  | unlock
deriving DecidableEq, Repr

/-- An `LruCache<Key, Val, Mutex>`: the members `capacity_` and `container_` together with the
member `mutex_`. -/
structure Locked (M : Mutex) (Key Val : Type) where
  cache : LruCache Key Val
  mutex_ : M.State

/-- A member call in progress: the three members of the cache and the events of the call so
far. -/
structure Running (M : Mutex) (Key Val : Type) where
  capacity_ : Nat
  container_ : Container Key Val
  mutex_ : M.State
  events : List Event

namespace Running

variable {M : Mutex}

/-- The call `mutex_.lock()`. When it returns it has left the event `lock`. -/
def lock (g : Running M Key Val) : Option (Running M Key Val) :=
  match M.lock g.mutex_ with
  | none => none
  | some st => some { g with mutex_ := st, events := g.events ++ [Event.lock] }

/-- The call `mutex_.unlock()`. When it returns it has left the event `unlock`. -/
def unlock (g : Running M Key Val) : Option (Running M Key Val) :=
  match M.unlock g.mutex_ with
  | none => none
  | some st => some { g with mutex_ := st, events := g.events ++ [Event.unlock] }

/-- A call on `container_`: `f` gives the container after the call and what the call returns.
The call leaves the event `access`. -/
def call {α : Type} (g : Running M Key Val)
    (f : Container Key Val → Container Key Val × α) : Running M Key Val × α :=
  ({ g with container_ := (f g.container_).1, events := g.events ++ [Event.access] },
    (f g.container_).2)

/-- A member body that starts with `Lock l(mutex_);`. The constructor of the
`std::lock_guard` calls `mutex_.lock()`, then the rest of the body runs, then the destructor
calls `mutex_.unlock()` wherever the body returns. A body whose assertion fails ends the
program and has no result. -/
def lock_guard {α : Type} (g : Running M Key Val)
    (body : Running M Key Val → Option (Running M Key Val × α)) :
    Option (Running M Key Val × α) :=
  match g.lock with
  | none => none
  | some g1 =>
    match body g1 with
    | none => none
    | some (g2, a) =>
      match g2.unlock with
      | none => none
      | some g3 => some (g3, a)

/-- The member `set(key, val)`, every call on `container_` recorded. -/
def set [DecidableEq Key] (g : Running M Key Val) (key : Key) (val : Val) :
    Option (Running M Key Val × Unit) :=
  lock_guard g (fun g =>
    let found := g.call (fun m => (m, m.left_find key))
    match found.2 with
    | none =>
      let sized := found.1.call (fun m => (m, m.size))
      if sized.2 = sized.1.capacity_ then
        let ended := sized.1.call (fun m => (m, m.right_end))
        match ended.2 with
        | 0 => none
        | last + 1 =>
          let erased := ended.1.call (fun m => m.right_erase last)
          let checked := erased.1.call (fun m => (m, m.right_end))
          if erased.2 = checked.2 then
            some ((checked.1.call (fun m => (m.right_push_front val key, ()))).1, ())
          else none
      else
        some ((sized.1.call (fun m => (m.right_push_front val key, ()))).1, ())
    | some left_iter =>
      let assigned := found.1.call (fun m => (m.assign_second left_iter val, ()))
      some ((assigned.1.call (fun m => (m.right_relocate_begin left_iter, ()))).1, ()))

/-- The member `get(key)`, every call on `container_` recorded. -/
def get [DecidableEq Key] (g : Running M Key Val) (key : Key) :
    Option (Running M Key Val × Option Val) :=
  lock_guard g (fun g =>
    let found := g.call (fun m => (m, m.left_find key))
    match found.2 with
    | some left_iter =>
      let moved := found.1.call (fun m => (m.right_relocate_begin left_iter, ()))
      let second := moved.1.call (fun m => (m, (m[0]?).map Prod.snd))
      some (second.1, second.2)
    | none => some (found.1, none))

/-- The member `erase(key)`, its call on `container_` recorded. -/
def erase [DecidableEq Key] (g : Running M Key Val) (key : Key) :
    Option (Running M Key Val × Bool) :=
  lock_guard g (fun g =>
    let erased := g.call (fun m => m.left_erase key)
    if erased.2 < 2 then some (erased.1, decide (erased.2 ≠ 0)) else none)

/-- The member `clear()`, its call on `container_` recorded. -/
def clear (g : Running M Key Val) : Option (Running M Key Val × Unit) :=
  lock_guard g (fun g => some ((g.call (fun m => (m.clear, ()))).1, ()))

end Running

namespace Locked

/-- The start of a member call on the cache: no event yet. -/
def enter {M : Mutex} (g : Locked M Key Val) : Running M Key Val :=
  { capacity_ := g.cache.capacity_, container_ := g.cache.container_, mutex_ := g.mutex_,
    events := [] }

/-- The cache after a member call, what the call returned, and the events of the call. -/
def leave {M : Mutex} {α : Type} :
    Option (Running M Key Val × α) → Option (Locked M Key Val × α × List Event)
  | none => none
  | some (g, a) =>
    some ({ cache := { capacity_ := g.capacity_, container_ := g.container_ },
            mutex_ := g.mutex_ }, a, g.events)

/-- The constructor with its initializer `mutex_()`. -/
def ctor (M : Mutex) (capacity : Nat) : Option (Locked M Key Val) :=
  match (LruCache.ctor capacity : Option (LruCache Key Val)) with
  | none => none
  | some s => some { cache := s, mutex_ := M.init }

/-- The member `set` with its lock. -/
def set [DecidableEq Key] (M : Mutex) (g : Locked M Key Val) (key : Key) (val : Val) :
    Option (Locked M Key Val × Unit × List Event) :=
  leave (g.enter.set key val)

/-- The member `get` with its lock. -/
def get [DecidableEq Key] (M : Mutex) (g : Locked M Key Val) (key : Key) :
    Option (Locked M Key Val × Option Val × List Event) :=
  leave (g.enter.get key)

/-- The member `erase` with its lock. -/
def erase [DecidableEq Key] (M : Mutex) (g : Locked M Key Val) (key : Key) :
    Option (Locked M Key Val × Bool × List Event) :=
  leave (g.enter.erase key)

/-- The member `clear` with its lock. -/
def clear (M : Mutex) (g : Locked M Key Val) : Option (Locked M Key Val × Unit × List Event) :=
  leave g.enter.clear

/-- Performs one call on a cache with its lock. -/
def step [DecidableEq Key] (M : Mutex) (g : Locked M Key Val) :
    Op Key Val → Option (Locked M Key Val × Res Val × List Event)
  | .set key val =>
    match set M g key val with
    | some (g', _, ev) => some (g', .unit, ev)
    | none => none
  | .get key =>
    match get M g key with
    | some (g', o, ev) => some (g', .value o, ev)
    | none => none
  | .erase key =>
    match erase M g key with
    | some (g', b, ev) => some (g', .erased b, ev)
    | none => none
  | .clear =>
    match clear M g with
    | some (g', _, ev) => some (g', .unit, ev)
    | none => none

/-- Performs the calls in order on a cache with its lock; returns the last state, the trace of
calls with their results, and the events. -/
def run [DecidableEq Key] (M : Mutex) (g : Locked M Key Val) :
    List (Op Key Val) → Option (Locked M Key Val × List (Op Key Val × Res Val) × List Event)
  | [] => some (g, [], [])
  | op :: ops =>
    match step M g op with
    | none => none
    | some (g', r, ev) =>
      match run M g' ops with
      | none => none
      | some (g'', tr, evs) => some (g'', (op, r) :: tr, ev ++ evs)

/-- Constructs a cache with lock `M` and performs the calls on it. -/
def exec [DecidableEq Key] (M : Mutex) (capacity : Nat) (ops : List (Op Key Val)) :
    Option (Locked M Key Val × List (Op Key Val × Res Val) × List Event) :=
  match (ctor M capacity : Option (Locked M Key Val)) with
  | none => none
  | some g => run M g ops

end Locked


/-! ## The bimap operations on a container split at a relation -/

namespace Container

theorem left_find_eq_none_iff [DecidableEq Key] (m : Container Key Val) (key : Key) :
    left_find m key = none ↔ ∀ e ∈ m, e.1 ≠ key := by
  induction m with
  | nil => simp [left_find]
  | cons e es ih =>
    by_cases h : e.1 = key
    · simp [left_find, h]
    · cases hf : left_find es key with
      | none => simpa [left_find, h, hf] using ih.mp hf
      | some i =>
        have : ¬ ∀ x ∈ es, x.1 ≠ key := fun hx => by simp [ih.mpr hx] at hf
        simpa [left_find, h, hf] using this

theorem left_find_split [DecidableEq Key] (pre post : Container Key Val) (key : Key) (val : Val)
    (hpre : ∀ e ∈ pre, e.1 ≠ key) :
    left_find (pre ++ (key, val) :: post) key = some pre.length := by
  induction pre with
  | nil => simp [left_find]
  | cons e es ih =>
    have he : e.1 ≠ key := hpre e (by simp)
    have := ih (fun x hx => hpre x (by simp [hx]))
    simp [left_find, he, this]

theorem split_of_left_find [DecidableEq Key] (m : Container Key Val) (key : Key) (i : Nat)
    (h : left_find m key = some i) :
    ∃ pre val post, m = pre ++ (key, val) :: post ∧ pre.length = i ∧ ∀ e ∈ pre, e.1 ≠ key := by
  induction m generalizing i with
  | nil => simp [left_find] at h
  | cons e es ih =>
    by_cases he : e.1 = key
    · simp [left_find, he] at h
      refine ⟨[], e.2, es, ?_, by simpa using h, by simp⟩
      rw [← he]; rfl
    · cases hf : left_find es key with
      | none => simp [left_find, he, hf] at h
      | some j =>
        simp [left_find, he, hf] at h
        obtain ⟨pre, val, post, hm, hlen, hpre⟩ := ih j hf
        refine ⟨e :: pre, val, post, by simp [hm], by simp [hlen, h], ?_⟩
        intro x hx
        rcases List.mem_cons.mp hx with hx | hx
        · rw [hx]; exact he
        · exact hpre x hx

theorem getElem?_split (pre post : Container Key Val) (e : Key × Val) :
    (pre ++ e :: post)[pre.length]? = some e := by
  induction pre with
  | nil => simp
  | cons x xs ih => simpa using ih

theorem eraseIdx_split (pre post : Container Key Val) (e : Key × Val) :
    (pre ++ e :: post).eraseIdx pre.length = pre ++ post := by
  induction pre with
  | nil => simp
  | cons x xs ih => simpa using ih

theorem set_split (pre post : Container Key Val) (e e' : Key × Val) :
    (pre ++ e :: post).set pre.length e' = pre ++ e' :: post := by
  induction pre with
  | nil => simp
  | cons x xs ih => simp [ih]

theorem assign_second_split (pre post : Container Key Val) (key : Key) (v0 val : Val) :
    assign_second (pre ++ (key, v0) :: post) pre.length val = pre ++ (key, val) :: post := by
  simp only [assign_second, getElem?_split, set_split]

theorem right_relocate_begin_split (pre post : Container Key Val) (e : Key × Val) :
    right_relocate_begin (pre ++ e :: post) pre.length = e :: (pre ++ post) := by
  simp only [right_relocate_begin, getElem?_split, eraseIdx_split]

theorem keys_nodup_split (pre post : Container Key Val) (key : Key) (val : Val)
    (h : ((pre ++ (key, val) :: post).map Prod.fst).Nodup) :
    (∀ e ∈ pre, e.1 ≠ key) ∧ (∀ e ∈ post, e.1 ≠ key) := by
  simp only [List.map_append, List.map_cons, List.nodup_append, List.nodup_cons,
    List.mem_map, not_exists, not_and] at h
  obtain ⟨_, ⟨hpost, _⟩, hdisj⟩ := h
  refine ⟨?_, ?_⟩
  · intro e he hk
    exact hdisj (List.mem_map_of_mem Prod.fst he) (by simp [hk])
  · intro e he hk
    exact hpost e he hk

theorem left_erase_split [DecidableEq Key] (pre post : Container Key Val) (key : Key) (val : Val)
    (hpre : ∀ e ∈ pre, e.1 ≠ key) (hpost : ∀ e ∈ post, e.1 ≠ key) :
    left_erase (pre ++ (key, val) :: post) key = (pre ++ post, 1) := by
  have h1 : pre.filter (fun e => decide (e.1 ≠ key)) = pre :=
    List.filter_eq_self.mpr (fun e he => by simpa using hpre e he)
  have h2 : post.filter (fun e => decide (e.1 ≠ key)) = post :=
    List.filter_eq_self.mpr (fun e he => by simpa using hpost e he)
  have h3 : pre.countP (fun e => decide (e.1 = key)) = 0 :=
    List.countP_eq_zero.mpr (fun e he => by simpa using hpre e he)
  have h4 : post.countP (fun e => decide (e.1 = key)) = 0 :=
    List.countP_eq_zero.mpr (fun e he => by simpa using hpost e he)
  unfold left_erase
  rw [List.filter_append, List.countP_append, List.filter_cons, List.countP_cons, h1, h2, h3, h4]
  simp

theorem left_erase_absent [DecidableEq Key] (m : Container Key Val) (key : Key)
    (h : ∀ e ∈ m, e.1 ≠ key) : left_erase m key = (m, 0) := by
  have h1 : m.filter (fun e => decide (e.1 ≠ key)) = m :=
    List.filter_eq_self.mpr (fun e he => by simpa using h e he)
  have h3 : m.countP (fun e => decide (e.1 = key)) = 0 :=
    List.countP_eq_zero.mpr (fun e he => by simpa using h e he)
  unfold left_erase
  rw [h1, h3]

end Container

/-! ## The four members on a state whose container is split at the key -/

namespace LruCache

theorem set_absent_room [DecidableEq Key] (s : LruCache Key Val) (key : Key) (val : Val)
    (habs : ∀ e ∈ s.container_, e.1 ≠ key) (hroom : s.container_.length ≠ s.capacity_) :
    s.set key val = some { s with container_ := (key, val) :: s.container_ } := by
  have hf := (Container.left_find_eq_none_iff s.container_ key).mpr habs
  simp [set, hf, Container.size, hroom, Container.right_push_front]

theorem set_absent_full [DecidableEq Key] (s : LruCache Key Val) (key : Key) (val : Val)
    (rest : Container Key Val) (victim : Key × Val) (hm : s.container_ = rest ++ [victim])
    (habs : ∀ e ∈ s.container_, e.1 ≠ key) (hfull : s.container_.length = s.capacity_) :
    s.set key val = some { s with container_ := (key, val) :: rest } := by
  obtain ⟨cap, m⟩ := s
  simp only at hm habs hfull
  subst hm
  have hf := (Container.left_find_eq_none_iff (rest ++ [victim]) key).mpr habs
  have hr : Container.left_find rest key = none :=
    (Container.left_find_eq_none_iff rest key).mpr (fun e he => habs e (by simp [he]))
  have he : (rest ++ [victim]).eraseIdx rest.length = rest := by
    simpa using Container.eraseIdx_split rest [] victim
  have hl : Container.right_end (rest ++ [victim]) = rest.length + 1 := by
    simp [Container.right_end]
  simp only [set, hf, Container.size, hfull, if_true]
  rw [hl]
  simp only [Container.right_erase, he, Container.right_end, if_true,
    Container.right_push_front, hr]

theorem set_present [DecidableEq Key] (s : LruCache Key Val) (key : Key) (val v0 : Val)
    (pre post : Container Key Val) (hm : s.container_ = pre ++ (key, v0) :: post)
    (hpre : ∀ e ∈ pre, e.1 ≠ key) :
    s.set key val = some { s with container_ := (key, val) :: (pre ++ post) } := by
  obtain ⟨cap, m⟩ := s
  simp only at hm
  subst hm
  simp only [set, Container.left_find_split pre post key v0 hpre,
    Container.assign_second_split, Container.right_relocate_begin_split]

theorem get_present [DecidableEq Key] (s : LruCache Key Val) (key : Key) (v0 : Val)
    (pre post : Container Key Val) (hm : s.container_ = pre ++ (key, v0) :: post)
    (hpre : ∀ e ∈ pre, e.1 ≠ key) :
    s.get key = ({ s with container_ := (key, v0) :: (pre ++ post) }, some v0) := by
  obtain ⟨cap, m⟩ := s
  simp only at hm
  subst hm
  simp [get, Container.left_find_split pre post key v0 hpre,
    Container.right_relocate_begin_split]

theorem get_absent [DecidableEq Key] (s : LruCache Key Val) (key : Key)
    (habs : ∀ e ∈ s.container_, e.1 ≠ key) : s.get key = (s, none) := by
  simp only [get, (Container.left_find_eq_none_iff s.container_ key).mpr habs]

theorem erase_present [DecidableEq Key] (s : LruCache Key Val) (key : Key) (v0 : Val)
    (pre post : Container Key Val) (hm : s.container_ = pre ++ (key, v0) :: post)
    (hpre : ∀ e ∈ pre, e.1 ≠ key) (hpost : ∀ e ∈ post, e.1 ≠ key) :
    s.erase key = some ({ s with container_ := pre ++ post }, true) := by
  obtain ⟨cap, m⟩ := s
  simp only at hm
  subst hm
  simp [erase, Container.left_erase_split pre post key v0 hpre hpost]

theorem erase_absent [DecidableEq Key] (s : LruCache Key Val) (key : Key)
    (habs : ∀ e ∈ s.container_, e.1 ≠ key) : s.erase key = some (s, false) := by
  simp [erase, Container.left_erase_absent s.container_ key habs]

end LruCache

/-- Resident keys split the container at their relation. -/
theorem resident_split {s : LruCache Key Val} {key : Key} (h : resident s key) :
    ∃ pre val post, s.container_ = pre ++ (key, val) :: post := by
  obtain ⟨val, hv⟩ := h
  obtain ⟨pre, post, hm⟩ := List.append_of_mem hv
  exact ⟨pre, val, post, hm⟩

theorem not_resident_iff (s : LruCache Key Val) (key : Key) :
    ¬ resident s key ↔ ∀ e ∈ s.container_, e.1 ≠ key := by
  constructor
  · intro h e he hk
    exact h ⟨e.2, by rw [← hk]; exact he⟩
  · rintro h ⟨val, hv⟩
    exact h (key, val) hv rfl

/-! ## The invariant of the states a constructed cache goes through -/

theorem Inv.split {s : LruCache Key Val} (hs : Inv s) {key : Key} {val : Val}
    {pre post : Container Key Val} (hm : s.container_ = pre ++ (key, val) :: post) :
    (∀ e ∈ pre, e.1 ≠ key) ∧ (∀ e ∈ post, e.1 ≠ key) :=
  Container.keys_nodup_split pre post key val (hm ▸ hs.keys_nodup)

theorem Inv.to_front {s : LruCache Key Val} (hs : Inv s) {key : Key} {v0 : Val} (val : Val)
    {pre post : Container Key Val} (hm : s.container_ = pre ++ (key, v0) :: post) :
    Inv { s with container_ := (key, val) :: (pre ++ post) } := by
  refine ⟨hs.cap_pos, ?_, ?_⟩
  · have := hs.size_le
    rw [hm] at this
    simpa [Nat.add_assoc] using this
  · have h := hs.keys_nodup
    rw [hm] at h
    have hp : List.Perm (List.map Prod.fst (pre ++ (key, v0) :: post))
        (List.map Prod.fst ((key, val) :: (pre ++ post))) := by
      simp
    exact hp.nodup_iff.mp h

theorem Inv.sublist {s : LruCache Key Val} (hs : Inv s) {m : Container Key Val}
    (hm : List.Sublist m s.container_) : Inv { s with container_ := m } :=
  ⟨hs.cap_pos, Nat.le_trans hm.length_le hs.size_le, (hm.map Prod.fst).nodup hs.keys_nodup⟩

/-- A full container of a cache with positive capacity ends in a last relation. -/
theorem Inv.full_split {s : LruCache Key Val} (hs : Inv s)
    (hfull : s.container_.length = s.capacity_) :
    ∃ rest victim, s.container_ = rest ++ [victim] := by
  have hne : s.container_ ≠ [] := by
    intro h
    have := hs.cap_pos
    rw [← hfull, h] at this
    simp at this
  exact ⟨s.container_.dropLast, s.container_.getLast hne, (List.dropLast_append_getLast hne).symm⟩

/-- The three ways `set` goes on a state that satisfies the invariant. -/
theorem set_cases [DecidableEq Key] {s : LruCache Key Val} (hs : Inv s) (key : Key) (val : Val) :
    (∃ pre v0 post, s.container_ = pre ++ (key, v0) :: post ∧
        s.set key val = some { s with container_ := (key, val) :: (pre ++ post) }) ∨
    ((∀ e ∈ s.container_, e.1 ≠ key) ∧ s.container_.length < s.capacity_ ∧
        s.set key val = some { s with container_ := (key, val) :: s.container_ }) ∨
    ((∀ e ∈ s.container_, e.1 ≠ key) ∧ s.container_.length = s.capacity_ ∧
        ∃ rest victim, s.container_ = rest ++ [victim] ∧
          s.set key val = some { s with container_ := (key, val) :: rest }) := by
  by_cases hres : resident s key
  · obtain ⟨pre, v0, post, hm⟩ := resident_split hres
    exact Or.inl ⟨pre, v0, post, hm, LruCache.set_present s key val v0 pre post hm (hs.split hm).1⟩
  · have habs := (not_resident_iff s key).mp hres
    rcases Nat.lt_or_eq_of_le hs.size_le with hlt | hfull
    · exact Or.inr (Or.inl ⟨habs, hlt, LruCache.set_absent_room s key val habs (Nat.ne_of_lt hlt)⟩)
    · obtain ⟨rest, victim, hm⟩ := hs.full_split hfull
      exact Or.inr (Or.inr ⟨habs, hfull, rest, victim, hm,
        LruCache.set_absent_full s key val rest victim hm habs hfull⟩)

theorem set_inv [DecidableEq Key] {s : LruCache Key Val} (hs : Inv s) (key : Key) (val : Val) :
    ∃ s', s.set key val = some s' ∧ Inv s' ∧ s'.capacity_ = s.capacity_ := by
  rcases set_cases hs key val with ⟨pre, v0, post, hm, h⟩ | ⟨habs, hlt, h⟩ |
      ⟨habs, hfull, rest, victim, hm, h⟩
  · exact ⟨_, h, hs.to_front val hm, rfl⟩
  · refine ⟨_, h, ⟨hs.cap_pos, hlt, ?_⟩, rfl⟩
    simp only [List.map_cons, List.nodup_cons, List.mem_map, not_exists, not_and]
    exact ⟨fun e he => habs e he, hs.keys_nodup⟩
  · have hsub : List.Sublist rest s.container_ := hm ▸ List.sublist_append_left rest [victim]
    have hr := hs.sublist hsub
    refine ⟨_, h, ⟨hs.cap_pos, ?_, ?_⟩, rfl⟩
    · have := hs.size_le
      rw [hm] at this
      simpa using this
    · simp only [List.map_cons, List.nodup_cons, List.mem_map, not_exists, not_and]
      exact ⟨fun e he => habs e (hsub.subset he), hr.keys_nodup⟩

/-- The two ways `get` goes on a state that satisfies the invariant. -/
theorem get_cases [DecidableEq Key] {s : LruCache Key Val} (hs : Inv s) (key : Key) :
    (∃ pre v0 post, s.container_ = pre ++ (key, v0) :: post ∧
        s.get key = ({ s with container_ := (key, v0) :: (pre ++ post) }, some v0)) ∨
    ((∀ e ∈ s.container_, e.1 ≠ key) ∧ s.get key = (s, none)) := by
  by_cases hres : resident s key
  · obtain ⟨pre, v0, post, hm⟩ := resident_split hres
    exact Or.inl ⟨pre, v0, post, hm, LruCache.get_present s key v0 pre post hm (hs.split hm).1⟩
  · have habs := (not_resident_iff s key).mp hres
    exact Or.inr ⟨habs, LruCache.get_absent s key habs⟩

theorem get_inv [DecidableEq Key] {s : LruCache Key Val} (hs : Inv s) (key : Key) :
    Inv (s.get key).1 ∧ (s.get key).1.capacity_ = s.capacity_ := by
  rcases get_cases hs key with ⟨pre, v0, post, hm, h⟩ | ⟨_, h⟩
  · rw [h]; exact ⟨hs.to_front v0 hm, rfl⟩
  · rw [h]; exact ⟨hs, rfl⟩

/-- The two ways `erase` goes on a state that satisfies the invariant. -/
theorem erase_cases [DecidableEq Key] {s : LruCache Key Val} (hs : Inv s) (key : Key) :
    (∃ pre v0 post, s.container_ = pre ++ (key, v0) :: post ∧
        s.erase key = some ({ s with container_ := pre ++ post }, true)) ∨
    ((∀ e ∈ s.container_, e.1 ≠ key) ∧ s.erase key = some (s, false)) := by
  by_cases hres : resident s key
  · obtain ⟨pre, v0, post, hm⟩ := resident_split hres
    exact Or.inl ⟨pre, v0, post, hm,
      LruCache.erase_present s key v0 pre post hm (hs.split hm).1 (hs.split hm).2⟩
  · have habs := (not_resident_iff s key).mp hres
    exact Or.inr ⟨habs, LruCache.erase_absent s key habs⟩

theorem split_sublist (pre post : Container Key Val) (e : Key × Val) :
    List.Sublist (pre ++ post) (pre ++ e :: post) :=
  List.Sublist.append (List.Sublist.refl pre) (List.sublist_cons_self e post)

theorem erase_inv [DecidableEq Key] {s : LruCache Key Val} (hs : Inv s) (key : Key) :
    ∃ s' b, s.erase key = some (s', b) ∧ Inv s' ∧ s'.capacity_ = s.capacity_ := by
  rcases erase_cases hs key with ⟨pre, v0, post, hm, h⟩ | ⟨_, h⟩
  · exact ⟨_, _, h, hs.sublist (hm ▸ split_sublist pre post (key, v0)), rfl⟩
  · exact ⟨_, _, h, hs, rfl⟩

theorem clear_inv {s : LruCache Key Val} (hs : Inv s) :
    Inv s.clear ∧ s.clear.capacity_ = s.capacity_ :=
  ⟨⟨hs.cap_pos, Nat.zero_le _, List.nodup_nil⟩, rfl⟩

theorem step_inv [DecidableEq Key] {s : LruCache Key Val} (hs : Inv s) (op : Op Key Val) :
    ∃ s' r, step s op = some (s', r) ∧ Inv s' ∧ s'.capacity_ = s.capacity_ := by
  cases op with
  | set key val =>
    obtain ⟨s', h, hi, hc⟩ := set_inv hs key val
    exact ⟨s', .unit, by simp [step, h], hi, hc⟩
  | get key => exact ⟨_, _, rfl, (get_inv hs key).1, (get_inv hs key).2⟩
  | erase key =>
    obtain ⟨s', b, h, hi, hc⟩ := erase_inv hs key
    exact ⟨s', .erased b, by simp [step, h], hi, hc⟩
  | clear => exact ⟨_, _, rfl, (clear_inv hs).1, (clear_inv hs).2⟩

theorem run_inv [DecidableEq Key] {s : LruCache Key Val} (hs : Inv s) (ops : List (Op Key Val)) :
    ∃ s' tr, run s ops = some (s', tr) ∧ Inv s' ∧ s'.capacity_ = s.capacity_ := by
  induction ops generalizing s with
  | nil => exact ⟨s, [], rfl, hs, rfl⟩
  | cons op ops ih =>
    obtain ⟨s1, r, h1, hi1, hc1⟩ := step_inv hs op
    obtain ⟨s2, tr, h2, hi2, hc2⟩ := ih hi1
    exact ⟨s2, (op, r) :: tr, by simp [run, h1, h2], hi2, hc2.trans hc1⟩

theorem ctor_pos (capacity : Nat) (h : 0 < capacity) :
    (LruCache.ctor capacity : Option (LruCache Key Val)) =
      some { capacity_ := capacity, container_ := [] } := by
  simp [LruCache.ctor, LruCache.ctor_build, h]

theorem exec_pos [DecidableEq Key] (capacity : Nat) (h : 0 < capacity) (ops : List (Op Key Val)) :
    exec capacity ops = run { capacity_ := capacity, container_ := [] } ops := by
  simp [exec, ctor_pos capacity h]

theorem exec_zero [DecidableEq Key] (ops : List (Op Key Val)) :
    (exec 0 ops : Option (LruCache Key Val × List (Op Key Val × Res Val))) = none := by
  simp [exec, LruCache.ctor, LruCache.ctor_build]

theorem inv_new (capacity : Nat) (h : 0 < capacity) :
    Inv ({ capacity_ := capacity, container_ := [] } : LruCache Key Val) :=
  ⟨h, Nat.zero_le _, List.nodup_nil⟩

theorem Reachable.cap_pos [DecidableEq Key] {capacity : Nat} {s : LruCache Key Val}
    (h : Reachable capacity s) : 0 < capacity := by
  obtain ⟨ops, tr, he⟩ := h
  rcases Nat.eq_zero_or_pos capacity with h0 | hp
  · subst h0; simp [exec_zero] at he
  · exact hp

theorem Reachable.inv [DecidableEq Key] {capacity : Nat} {s : LruCache Key Val}
    (h : Reachable capacity s) : Inv s ∧ s.capacity_ = capacity := by
  have hp := h.cap_pos
  obtain ⟨ops, tr, he⟩ := h
  rw [exec_pos capacity hp] at he
  obtain ⟨s', tr', h', hi, hc⟩ := run_inv (inv_new capacity hp) ops
  rw [he] at h'
  cases h'
  exact ⟨hi, hc⟩

theorem reachable_run [DecidableEq Key] (capacity : Nat) (h : 0 < capacity)
    (ops : List (Op Key Val)) :
    ∃ s tr, exec capacity ops = some (s, tr) ∧ Reachable capacity s := by
  obtain ⟨s, tr, hr, _, _⟩ := run_inv (inv_new capacity h) ops
  rw [← exec_pos capacity h] at hr
  exact ⟨s, tr, hr, ops, tr, hr⟩

/-! ## Capacity -/

/-- C2, capacity invariant: on a cache constructed with a positive capacity every sequence of
`set`, `get`, `erase` and `clear` calls runs to its end, no assertion failing, and after each of
its calls (after every prefix `ops.take n` of the sequence) the container holds at most
`capacity` relations. -/
theorem capacity_invariant [DecidableEq Key] (capacity : Nat) (hcap : 0 < capacity)
    (ops : List (Op Key Val)) (n : Nat) :
    ∃ s tr, exec capacity (ops.take n) = some (s, tr) ∧ s.container_.size ≤ capacity := by
  obtain ⟨s, tr, hr, hreach⟩ := reachable_run capacity hcap (ops.take n)
  refine ⟨s, tr, hr, ?_⟩
  have := hreach.inv
  rw [← this.2]
  exact this.1.size_le

theorem capacity_invariant_witness :
    0 < 2 ∧ ∃ s tr, exec 2 (([Op.set 1 10, .set 2 20, .get 1, .set 3 30, .erase 1, .clear,
      .set 4 40] : List (Op Nat Nat)).take 4) = some (s, tr) ∧ s.container_.size ≤ 2 :=
  ⟨by decide, capacity_invariant 2 (by decide) _ 4⟩

/-! ## The members on reachable states -/

/-- C3, `get` on a resident key: in a reachable state whose container holds `(key, val)`
between the relations `pre` and `post`, `get key` returns `val` and the container becomes
`(key, val)` followed by `pre ++ post`; the same relations are in the container as before
(same keys, same values), and the relations of the other keys are in the same order. -/
theorem get_resident [DecidableEq Key] (capacity : Nat) (s : LruCache Key Val)
    (hs : Reachable capacity s) (key : Key) (val : Val) (pre post : Container Key Val)
    (hm : s.container_ = pre ++ (key, val) :: post) :
    s.get key = ({ capacity_ := capacity, container_ := (key, val) :: (pre ++ post) }, some val) ∧
    (∀ e, e ∈ (s.get key).1.container_ ↔ e ∈ s.container_) ∧
    (s.get key).1.container_.filter (fun e => decide (e.1 ≠ key)) =
      s.container_.filter (fun e => decide (e.1 ≠ key)) := by
  obtain ⟨hi, hc⟩ := hs.inv
  have h := LruCache.get_present s key val pre post hm (hi.split hm).1
  rw [hc] at h
  refine ⟨h, ?_, ?_⟩
  · intro e
    rw [h, hm]
    simp only [List.mem_cons, List.mem_append]
    tauto
  · rw [h, hm]
    simp [List.filter_append, List.filter_cons]

theorem get_resident_witness :
    Reachable 3 (⟨3, [(3, 30), (2, 20), (1, 10)]⟩ : LruCache Nat Nat) ∧
    (⟨3, [(3, 30), (2, 20), (1, 10)]⟩ : LruCache Nat Nat).get 2 =
      (⟨3, [(2, 20), (3, 30), (1, 10)]⟩, some 20) :=
  have hr : Reachable 3 (⟨3, [(3, 30), (2, 20), (1, 10)]⟩ : LruCache Nat Nat) :=
    ⟨[.set 1 10, .set 2 20, .set 3 30], _, rfl⟩
  ⟨hr, (get_resident 3 _ hr 2 20 [(3, 30)] [(1, 10)] rfl).1⟩

/-- C4, `set` of a key that is not resident: in a reachable state `(key, val)` goes to the front
of the container; the last relation is dropped exactly when the container held `capacity`
relations (it is then not empty), and nothing else is removed or moved. With capacity 1 a
container holding one relation ends up holding `(key, val)` alone. -/
theorem set_non_resident [DecidableEq Key] (capacity : Nat) (s : LruCache Key Val)
    (hs : Reachable capacity s) (key : Key) (val : Val) (hk : ¬ resident s key) :
    s.set key val = some { capacity_ := capacity, container_ := (key, val) ::
      (if s.container_.size = capacity then s.container_.dropLast else s.container_) } ∧
    (s.container_.size = capacity →
      ∃ rest victim, s.container_ = rest ++ [victim] ∧ s.container_.dropLast = rest) ∧
    (capacity = 1 → ∀ e, s.container_ = [e] →
      s.set key val = some { capacity_ := 1, container_ := [(key, val)] }) := by
  obtain ⟨hi, hc⟩ := hs.inv
  have habs := (not_resident_iff s key).mp hk
  have hfullsplit : s.container_.size = capacity →
      ∃ rest victim, s.container_ = rest ++ [victim] ∧ s.container_.dropLast = rest := by
    intro hfull
    obtain ⟨rest, victim, hm⟩ := hi.full_split (hfull.trans hc.symm)
    exact ⟨rest, victim, hm, by rw [hm]; simp⟩
  have hmain : s.set key val = some { capacity_ := capacity, container_ := (key, val) ::
      (if s.container_.size = capacity then s.container_.dropLast else s.container_) } := by
    by_cases hfull : s.container_.size = capacity
    · obtain ⟨rest, victim, hm, hd⟩ := hfullsplit hfull
      rw [if_pos hfull, hd, ← hc]
      exact LruCache.set_absent_full s key val rest victim hm habs (hfull.trans hc.symm)
    · rw [if_neg hfull, ← hc]
      exact LruCache.set_absent_room s key val habs (fun h => hfull (h.trans hc))
  refine ⟨hmain, hfullsplit, ?_⟩
  intro h1 e he
  rw [hmain, he, h1]
  simp [Container.size]

theorem set_non_resident_witness :
    Reachable 2 (⟨2, [(2, 20), (1, 10)]⟩ : LruCache Nat Nat) ∧
    ¬ resident (⟨2, [(2, 20), (1, 10)]⟩ : LruCache Nat Nat) 3 ∧
    (⟨2, [(2, 20), (1, 10)]⟩ : LruCache Nat Nat).set 3 30 = some ⟨2, [(3, 30), (2, 20)]⟩ :=
  have hr : Reachable 2 (⟨2, [(2, 20), (1, 10)]⟩ : LruCache Nat Nat) :=
    ⟨[.set 1 10, .set 2 20], _, rfl⟩
  have hk : ¬ resident (⟨2, [(2, 20), (1, 10)]⟩ : LruCache Nat Nat) 3 := by
    rw [not_resident_iff]; decide
  ⟨hr, hk, (set_non_resident 2 _ hr 3 30 hk).1⟩

/-- C5, `set` of a resident key: in a reachable state, full or not, whose container holds
`(key, v0)` between `pre` and `post`, `set key val` makes the container `(key, val)` followed
by `pre ++ post`: the value is replaced, the relation is first, no relation is dropped, the
number of relations is the same, and the other relations keep their values and order. -/
theorem set_resident [DecidableEq Key] (capacity : Nat) (s : LruCache Key Val)
    (hs : Reachable capacity s) (key : Key) (val v0 : Val) (pre post : Container Key Val)
    (hm : s.container_ = pre ++ (key, v0) :: post) :
    ∃ s', s.set key val = some s' ∧
      s' = { capacity_ := capacity, container_ := (key, val) :: (pre ++ post) } ∧
      s'.container_.size = s.container_.size ∧
      s'.container_.filter (fun e => decide (e.1 ≠ key)) =
        s.container_.filter (fun e => decide (e.1 ≠ key)) ∧
      (∀ e, e.1 ≠ key → (e ∈ s'.container_ ↔ e ∈ s.container_)) := by
  obtain ⟨hi, hc⟩ := hs.inv
  have h := LruCache.set_present s key val v0 pre post hm (hi.split hm).1
  rw [hc] at h
  refine ⟨_, h, rfl, ?_, ?_, ?_⟩
  · rw [hm]; simp [Container.size, Nat.add_assoc]
  · rw [hm]; simp [List.filter_append, List.filter_cons]
  · intro e he
    rw [hm]
    have h1 : e ≠ (key, val) := fun h => he (by rw [h])
    have h2 : e ≠ (key, v0) := fun h => he (by rw [h])
    simp [h1, h2]

theorem set_resident_witness :
    Reachable 2 (⟨2, [(2, 20), (1, 10)]⟩ : LruCache Nat Nat) ∧
    ∃ s', (⟨2, [(2, 20), (1, 10)]⟩ : LruCache Nat Nat).set 1 11 = some s' ∧
      s' = ⟨2, [(1, 11), (2, 20)]⟩ :=
  have hr : Reachable 2 (⟨2, [(2, 20), (1, 10)]⟩ : LruCache Nat Nat) :=
    ⟨[.set 1 10, .set 2 20], _, rfl⟩
  match set_resident 2 _ hr 1 11 10 [(2, 20)] [] rfl with
  | ⟨s', h1, h2, _⟩ => ⟨hr, s', h1, h2⟩

/-- After `set key val` the relation `(key, val)` is the first of the container. -/
theorem set_front [DecidableEq Key] {s : LruCache Key Val} (hs : Inv s) (key : Key) (val : Val) :
    ∃ tl, s.set key val = some { s with container_ := (key, val) :: tl } := by
  rcases set_cases hs key val with ⟨pre, v0, post, _, h⟩ | ⟨_, _, h⟩ | ⟨_, _, rest, _, _, h⟩
  · exact ⟨_, h⟩
  · exact ⟨_, h⟩
  · exact ⟨_, h⟩

/-- C6, idempotent update: from a reachable state, `set key v1` and then `set key v2` both
return, a following `get key` returns `v2`, and the container holds as many relations after
the second `set` as after the first. -/
theorem set_set_get [DecidableEq Key] (capacity : Nat) (s : LruCache Key Val)
    (hs : Reachable capacity s) (key : Key) (v1 v2 : Val) :
    ∃ s1 s2, s.set key v1 = some s1 ∧ s1.set key v2 = some s2 ∧
      (s2.get key).2 = some v2 ∧ s2.container_.size = s1.container_.size := by
  obtain ⟨hi, _⟩ := hs.inv
  obtain ⟨tl, h1⟩ := set_front hi key v1
  obtain ⟨s1, h1', hi1, _⟩ := set_inv hi key v1
  rw [h1] at h1'
  cases h1'
  have h2 := LruCache.set_present { s with container_ := (key, v1) :: tl } key v2 v1 [] tl rfl
    (by simp)
  refine ⟨_, _, h1, h2, ?_, ?_⟩
  · rw [LruCache.get_present _ key v2 [] tl rfl (by simp)]
  · simp [Container.size]

theorem set_set_get_witness :
    Reachable 2 (⟨2, [(2, 20), (1, 10)]⟩ : LruCache Nat Nat) ∧
    ∃ s1 s2, (⟨2, [(2, 20), (1, 10)]⟩ : LruCache Nat Nat).set 3 30 = some s1 ∧
      s1.set 3 31 = some s2 ∧ (s2.get 3).2 = some 31 ∧
      s2.container_.size = s1.container_.size :=
  have hr : Reachable 2 (⟨2, [(2, 20), (1, 10)]⟩ : LruCache Nat Nat) :=
    ⟨[.set 1 10, .set 2 20], _, rfl⟩
  ⟨hr, set_set_get 2 _ hr 3 30 31⟩

/-- C7, result of `erase`: in a reachable state `erase key` returns, its result is `true`
exactly when `key` was resident, a `get key` right after it finds nothing, and when the result
is `true` the container holds one relation less. -/
theorem erase_result [DecidableEq Key] (capacity : Nat) (s : LruCache Key Val)
    (hs : Reachable capacity s) (key : Key) :
    ∃ s' b, s.erase key = some (s', b) ∧ (b = true ↔ resident s key) ∧
      (s'.get key).2 = none ∧ (b = true → s'.container_.size + 1 = s.container_.size) := by
  obtain ⟨hi, _⟩ := hs.inv
  rcases erase_cases hi key with ⟨pre, v0, post, hm, h⟩ | ⟨habs, h⟩
  · obtain ⟨hpre, hpost⟩ := hi.split hm
    refine ⟨_, _, h, ?_, ?_, ?_⟩
    · simp only [true_iff]
      exact ⟨v0, by rw [hm]; simp⟩
    · rw [LruCache.get_absent]
      intro e he
      rcases List.mem_append.mp he with he | he
      · exact hpre e he
      · exact hpost e he
    · intro _
      rw [hm]
      simp [Container.size, Nat.add_assoc]
  · refine ⟨_, _, h, ?_, ?_, ?_⟩
    · simp only [Bool.false_eq_true, false_iff]
      exact (not_resident_iff s key).mpr habs
    · rw [LruCache.get_absent s key habs]
    · intro hb
      cases hb

theorem erase_result_witness :
    Reachable 2 (⟨2, [(2, 20), (1, 10)]⟩ : LruCache Nat Nat) ∧
    ∃ s' b, (⟨2, [(2, 20), (1, 10)]⟩ : LruCache Nat Nat).erase 2 = some (s', b) ∧
      (b = true ↔ resident (⟨2, [(2, 20), (1, 10)]⟩ : LruCache Nat Nat) 2) ∧
      (s'.get 2).2 = none ∧
      (b = true → s'.container_.size + 1 = Container.size [((2 : Nat), (20 : Nat)), (1, 10)]) :=
  have hr : Reachable 2 (⟨2, [(2, 20), (1, 10)]⟩ : LruCache Nat Nat) :=
    ⟨[.set 1 10, .set 2 20], _, rfl⟩
  ⟨hr, erase_result 2 _ hr 2⟩

/-- C8, frame of `erase`: in a reachable state whose container holds `(key, val)` between `pre`
and `post`, `erase key` leaves the container `pre ++ post`, the other relations with their
values and order; when `key` is not resident the state after `erase key` is the state before. -/
theorem erase_frame [DecidableEq Key] (capacity : Nat) (s : LruCache Key Val)
    (hs : Reachable capacity s) (key : Key) :
    (∀ val pre post, s.container_ = pre ++ (key, val) :: post →
      s.erase key = some ({ capacity_ := capacity, container_ := pre ++ post }, true)) ∧
    (¬ resident s key → s.erase key = some (s, false)) := by
  obtain ⟨hi, hc⟩ := hs.inv
  refine ⟨?_, ?_⟩
  · intro val pre post hm
    rw [← hc]
    exact LruCache.erase_present s key val pre post hm (hi.split hm).1 (hi.split hm).2
  · intro hk
    exact LruCache.erase_absent s key ((not_resident_iff s key).mp hk)

theorem erase_frame_witness :
    Reachable 3 (⟨3, [(3, 30), (2, 20), (1, 10)]⟩ : LruCache Nat Nat) ∧
    (⟨3, [(3, 30), (2, 20), (1, 10)]⟩ : LruCache Nat Nat).erase 2 =
      some (⟨3, [(3, 30), (1, 10)]⟩, true) :=
  have hr : Reachable 3 (⟨3, [(3, 30), (2, 20), (1, 10)]⟩ : LruCache Nat Nat) :=
    ⟨[.set 1 10, .set 2 20, .set 3 30], _, rfl⟩
  ⟨hr, (erase_frame 3 _ hr 2).1 20 [(3, 30)] [(1, 10)] rfl⟩

/-- C9, `get` of a key that is not resident: in a reachable state, the empty cache included,
`get key` returns the empty optional and the state is the one before the call; and `get key`
returns a value exactly when `key` is resident. -/
theorem get_non_resident [DecidableEq Key] (capacity : Nat) (s : LruCache Key Val)
    (hs : Reachable capacity s) (key : Key) :
    (¬ resident s key → s.get key = (s, none)) ∧
    ((s.get key).2.isSome = true ↔ resident s key) := by
  obtain ⟨hi, _⟩ := hs.inv
  refine ⟨fun hk => LruCache.get_absent s key ((not_resident_iff s key).mp hk), ?_⟩
  rcases get_cases hi key with ⟨pre, v0, post, hm, h⟩ | ⟨habs, h⟩
  · rw [h]
    simp only [Option.isSome_some, true_iff]
    exact ⟨v0, by rw [hm]; simp⟩
  · rw [h]
    simp only [Option.isSome_none, Bool.false_eq_true, false_iff]
    exact (not_resident_iff s key).mpr habs

theorem get_non_resident_witness :
    Reachable 1 (⟨1, []⟩ : LruCache Nat Nat) ∧
    (¬ resident (⟨1, []⟩ : LruCache Nat Nat) 5 → (⟨1, []⟩ : LruCache Nat Nat).get 5 =
      (⟨1, []⟩, none)) ∧
    (((⟨1, []⟩ : LruCache Nat Nat).get 5).2.isSome = true ↔
      resident (⟨1, []⟩ : LruCache Nat Nat) 5) :=
  have hr : Reachable 1 (⟨1, []⟩ : LruCache Nat Nat) := ⟨[], _, rfl⟩
  ⟨hr, get_non_resident 1 _ hr 5⟩

/-! ## Filling a cache that has room -/

/-- Sets of distinct keys, none of them in the container, that fit in the remaining room are
added one in front of the other and nothing is dropped. -/
theorem run_sets_room [DecidableEq Key] (kvs : List (Key × Val)) (s : LruCache Key Val)
    (hnodup : (kvs.map Prod.fst).Nodup)
    (hdisj : ∀ e ∈ kvs, ∀ x ∈ s.container_, x.1 ≠ e.1)
    (hroom : s.container_.length + kvs.length ≤ s.capacity_) :
    ∃ tr, run s (kvs.map (fun e => Op.set e.1 e.2)) =
      some ({ s with container_ := kvs.reverse ++ s.container_ }, tr) := by
  induction kvs generalizing s with
  | nil => exact ⟨[], by simp [run]⟩
  | cons e kvs ih =>
    simp only [List.map_cons, List.nodup_cons, List.mem_map, not_exists, not_and] at hnodup
    have habs : ∀ x ∈ s.container_, x.1 ≠ e.1 := hdisj e (by simp)
    have hlen : s.container_.length ≠ s.capacity_ := by
      simp only [List.length_cons] at hroom
      omega
    have hset := LruCache.set_absent_room s e.1 e.2 habs hlen
    obtain ⟨tr, htr⟩ := ih { s with container_ := e :: s.container_ } hnodup.2
      (by
        intro e' he' x hx
        rcases List.mem_cons.mp hx with hx | hx
        · rw [hx]; exact fun h => hnodup.1 e' he' h.symm
        · exact hdisj e' (by simp [he']) x hx)
      (by
        simp only [List.length_cons] at hroom ⊢
        omega)
    refine ⟨(Op.set e.1 e.2, Res.unit) :: tr, ?_⟩
    simp only [List.map_cons, run, step, hset, Prod.mk.eta, htr]
    simp

/-- C10, `clear` completeness: after `clear` in a reachable state of a cache of capacity
`capacity` the container is empty, `get` of every key finds nothing, the capacity is still
`capacity`, and setting `capacity` relations `kvs` with distinct keys afterwards returns and
leaves exactly these relations in the container, the last set first: all resident, none
dropped. -/
theorem clear_completeness [DecidableEq Key] (capacity : Nat) (s : LruCache Key Val)
    (hs : Reachable capacity s) (kvs : List (Key × Val)) (hlen : kvs.length = capacity)
    (hnodup : (kvs.map Prod.fst).Nodup) :
    s.clear.capacity_ = capacity ∧ s.clear.container_ = [] ∧
    (∀ key, s.clear.get key = (s.clear, none)) ∧
    ∃ s' tr, run s.clear (kvs.map (fun e => Op.set e.1 e.2)) = some (s', tr) ∧
      s' = { capacity_ := capacity, container_ := kvs.reverse } ∧
      s'.container_.size = capacity ∧ ∀ e ∈ kvs, (s'.get e.1).2 = some e.2 := by
  obtain ⟨hi, hc⟩ := hs.inv
  have hclear : s.clear = { capacity_ := capacity, container_ := [] } := by
    simp [LruCache.clear, Container.clear, hc]
  refine ⟨by rw [hclear], by rw [hclear], ?_, ?_⟩
  · intro key
    exact LruCache.get_absent s.clear key (by rw [hclear]; simp)
  · obtain ⟨tr, htr⟩ := run_sets_room kvs s.clear hnodup (by rw [hclear]; simp)
      (by rw [hclear]; simp [hlen])
    rw [hclear] at htr
    simp only [List.append_nil] at htr
    rw [hclear]
    refine ⟨_, tr, htr, rfl, by simp [Container.size, hlen], ?_⟩
    intro e he
    have hinv : Inv ({ capacity_ := capacity, container_ := kvs.reverse } : LruCache Key Val) := by
      refine ⟨hc ▸ hi.cap_pos, by simp [hlen], ?_⟩
      simp only [List.map_reverse]
      exact List.nodup_reverse.mpr hnodup
    obtain ⟨pre, post, hm⟩ := List.append_of_mem (List.mem_reverse.mpr he)
    have hm' : ({ capacity_ := capacity, container_ := kvs.reverse } : LruCache Key Val).container_
        = pre ++ (e.1, e.2) :: post := hm
    rw [LruCache.get_present _ e.1 e.2 pre post hm' (hinv.split hm').1]

theorem clear_completeness_witness :
    Reachable 2 (⟨2, [(2, 20), (1, 10)]⟩ : LruCache Nat Nat) ∧
    (LruCache.clear (⟨2, [(2, 20), (1, 10)]⟩ : LruCache Nat Nat)).capacity_ = 2 ∧
    (LruCache.clear (⟨2, [(2, 20), (1, 10)]⟩ : LruCache Nat Nat)).container_ = [] ∧
    ∃ s' tr, run (LruCache.clear (⟨2, [(2, 20), (1, 10)]⟩ : LruCache Nat Nat))
        [.set 7 70, .set 8 80] = some (s', tr) ∧ s' = ⟨2, [(8, 80), (7, 70)]⟩ :=
  have hr : Reachable 2 (⟨2, [(2, 20), (1, 10)]⟩ : LruCache Nat Nat) :=
    ⟨[.set 1 10, .set 2 20], _, rfl⟩
  match clear_completeness 2 _ hr [(7, 70), (8, 80)] rfl (by decide) with
  | ⟨h1, h2, _, s', tr, h3, h4, _⟩ => ⟨hr, h1, h2, s', tr, h3, h4⟩

/-! ## Recency order -/

theorem lastAccessRev_le [DecidableEq Key] (key : Key) (l : List (Op Key Val × Res Val)) :
    lastAccessRev key l ≤ l.length := by
  induction l with
  | nil => simp [lastAccessRev]
  | cons x xs ih =>
    by_cases h : accessed key x = true
    · simp [lastAccessRev, h]
    · have h' : accessed key x = false := by simpa using h
      simp only [lastAccessRev, h', Bool.false_eq_true, if_false, List.length_cons]
      omega

theorem lastAccess_le [DecidableEq Key] (tr : List (Op Key Val × Res Val)) (key : Key) :
    lastAccess tr key ≤ tr.length := by
  have := lastAccessRev_le key tr.reverse
  simpa [lastAccess] using this

theorem lastAccess_snoc [DecidableEq Key] (tr : List (Op Key Val × Res Val))
    (x : Op Key Val × Res Val) (key : Key) :
    lastAccess (tr ++ [x]) key = if accessed key x = true then tr.length + 1
      else lastAccess tr key := by
  simp [lastAccess, lastAccessRev]

theorem SortedBy.of_sublist {f g : Key → Nat} {m m' : Container Key Val} (h : SortedBy f m)
    (hsub : List.Sublist m' m) (hfg : ∀ e ∈ m', g e.1 = f e.1) : SortedBy g m' := by
  refine ⟨?_, ?_⟩
  · refine List.Pairwise.imp_of_mem ?_ (h.1.sublist hsub)
    intro a b ha hb hab
    rw [hfg a ha, hfg b hb]
    exact hab
  · intro e he
    rw [hfg e he]
    exact h.2 e (hsub.subset he)

theorem SortedBy.front {f g : Key → Nat} {m rest : Container Key Val} (h : SortedBy f m)
    (hsub : List.Sublist rest m) (key : Key) (val : Val) (n : Nat)
    (hfg : ∀ e ∈ rest, g e.1 = f e.1) (hle : ∀ k, f k ≤ n) (hkey : g key = n + 1) :
    SortedBy g ((key, val) :: rest) := by
  have hr := h.of_sublist hsub hfg
  refine ⟨List.pairwise_cons.mpr ⟨?_, hr.1⟩, ?_⟩
  · intro e he
    show g e.1 < g key
    rw [hfg e he, hkey]
    exact Nat.lt_succ_of_le (hle e.1)
  · intro e he
    rcases List.mem_cons.mp he with he | he
    · rw [he, hkey]; exact Nat.succ_pos n
    · exact hr.2 e he

/-- A call that touches `key` and leaves it in front of relations that were in the container
under other keys keeps the container in recency order. -/
theorem sorted_touch [DecidableEq Key] {tr : List (Op Key Val × Res Val)}
    {m rest : Container Key Val} (h : SortedBy (lastAccess tr) m) (hsub : List.Sublist rest m)
    (key : Key) (val : Val) (x : Op Key Val × Res Val)
    (hx : ∀ k, accessed k x = decide (key = k)) (hrest : ∀ e ∈ rest, e.1 ≠ key) :
    SortedBy (lastAccess (tr ++ [x])) ((key, val) :: rest) := by
  refine h.front hsub key val tr.length ?_ (lastAccess_le tr) ?_
  · intro e he
    have : ¬ key = e.1 := fun hk => hrest e he hk.symm
    simp [lastAccess_snoc, hx, this]
  · simp [lastAccess_snoc, hx]

/-- A call that touches no key and drops relations keeps the container in recency order. -/
theorem sorted_untouched [DecidableEq Key] {tr : List (Op Key Val × Res Val)}
    {m m' : Container Key Val} (h : SortedBy (lastAccess tr) m) (hsub : List.Sublist m' m)
    (x : Op Key Val × Res Val) (hx : ∀ k, accessed k x = false) :
    SortedBy (lastAccess (tr ++ [x])) m' :=
  h.of_sublist hsub (fun e _ => by simp [lastAccess_snoc, hx])

theorem step_sorted [DecidableEq Key] {s s' : LruCache Key Val} (hs : Inv s)
    {tr : List (Op Key Val × Res Val)} (h : SortedBy (lastAccess tr) s.container_)
    (op : Op Key Val) (r : Res Val) (hstep : step s op = some (s', r)) :
    SortedBy (lastAccess (tr ++ [(op, r)])) s'.container_ := by
  cases op with
  | set key val =>
    have hx : ∀ k, accessed k (Op.set key val, r) = decide (key = k) := fun k => rfl
    rcases set_cases hs key val with ⟨pre, v0, post, hm, hset⟩ | ⟨habs, _, hset⟩ |
        ⟨habs, _, rest, victim, hm, hset⟩
    all_goals
      simp only [step, hset, Option.some.injEq, Prod.mk.injEq] at hstep
      obtain ⟨hs', _⟩ := hstep
      subst hs'
    · refine sorted_touch h (hm ▸ split_sublist pre post (key, v0)) key val _ hx ?_
      intro e he
      rcases List.mem_append.mp he with he | he
      · exact (hs.split hm).1 e he
      · exact (hs.split hm).2 e he
    · exact sorted_touch h (List.Sublist.refl _) key val _ hx habs
    · have hsub : List.Sublist rest s.container_ := hm ▸ List.sublist_append_left rest [victim]
      exact sorted_touch h hsub key val _ hx (fun e he => habs e (hsub.subset he))
  | get key =>
    rcases get_cases hs key with ⟨pre, v0, post, hm, hget⟩ | ⟨habs, hget⟩
    all_goals
      simp only [step, hget, Option.some.injEq, Prod.mk.injEq] at hstep
      obtain ⟨hs', hr⟩ := hstep
      subst hs' hr
    · have hx : ∀ k, accessed k (Op.get key, Res.value (some v0)) = decide (key = k) :=
        fun k => rfl
      refine sorted_touch h (hm ▸ split_sublist pre post (key, v0)) key v0 _ hx ?_
      intro e he
      rcases List.mem_append.mp he with he | he
      · exact (hs.split hm).1 e he
      · exact (hs.split hm).2 e he
    · exact sorted_untouched h (List.Sublist.refl _) _ (fun k => rfl)
  | erase key =>
    have hx : ∀ k, accessed k (Op.erase key, r) = false := fun k => rfl
    rcases erase_cases hs key with ⟨pre, v0, post, hm, he⟩ | ⟨habs, he⟩
    all_goals
      simp only [step, he, Option.some.injEq, Prod.mk.injEq] at hstep
      obtain ⟨hs', _⟩ := hstep
      subst hs'
    · exact sorted_untouched h (hm ▸ split_sublist pre post (key, v0)) _ hx
    · exact sorted_untouched h (List.Sublist.refl _) _ hx
  | clear =>
    simp only [step, Option.some.injEq, Prod.mk.injEq] at hstep
    obtain ⟨hs', _⟩ := hstep
    subst hs'
    exact ⟨List.Pairwise.nil, fun e he => by simp [LruCache.clear, Container.clear] at he⟩

theorem run_sorted [DecidableEq Key] (ops : List (Op Key Val)) {s s' : LruCache Key Val}
    (hs : Inv s) {tr0 tr : List (Op Key Val × Res Val)}
    (h : SortedBy (lastAccess tr0) s.container_) (hrun : run s ops = some (s', tr)) :
    SortedBy (lastAccess (tr0 ++ tr)) s'.container_ := by
  induction ops generalizing s tr0 tr with
  | nil =>
    simp only [run, Option.some.injEq, Prod.mk.injEq] at hrun
    obtain ⟨h1, h2⟩ := hrun
    subst h1 h2
    simpa using h
  | cons op ops ih =>
    obtain ⟨s1, r, h1, hi1, _⟩ := step_inv hs op
    cases h2 : run s1 ops with
    | none => simp [run, h1, h2] at hrun
    | some p =>
      obtain ⟨s2, tr2⟩ := p
      simp only [run, h1, h2, Option.some.injEq, Prod.mk.injEq] at hrun
      obtain ⟨h3, h4⟩ := hrun
      subst h3 h4
      have := ih hi1 (step_sorted hs h op r h1) h2
      simpa using this

/-- C1, LRU victim: with times counted by calls and a key accessed by each `set` on it and each
`get` that finds it, every state reached from a newly constructed cache of positive capacity
lists its relations from the most recently accessed key (front) to the least recently accessed
one (back), each with a different access time. When a `set` of a key that is not resident finds
the container full, the relation it drops is the last one, `victim`: its key was accessed
strictly earlier than the key of every relation that stays, and it is not resident
afterwards. -/
theorem lru_victim [DecidableEq Key] (capacity : Nat) (hcap : 0 < capacity)
    (ops : List (Op Key Val)) (s : LruCache Key Val) (tr : List (Op Key Val × Res Val))
    (h : exec capacity ops = some (s, tr)) :
    s.container_.Pairwise (fun a b => lastAccess tr b.1 < lastAccess tr a.1) ∧
    (∀ e ∈ s.container_, 0 < lastAccess tr e.1) ∧
    ∀ key val, ¬ resident s key → s.container_.size = s.capacity_ →
      ∃ rest victim, s.container_ = rest ++ [victim] ∧
        s.set key val = some { capacity_ := capacity, container_ := (key, val) :: rest } ∧
        (∀ e ∈ rest, lastAccess tr victim.1 < lastAccess tr e.1) ∧
        ¬ resident { capacity_ := capacity, container_ := (key, val) :: rest } victim.1 := by
  obtain ⟨hi, hc⟩ := (Reachable.inv ⟨ops, tr, h⟩ : Inv s ∧ s.capacity_ = capacity)
  rw [exec_pos capacity hcap] at h
  have hsorted : SortedBy (lastAccess tr) s.container_ := by
    have h0 : SortedBy (lastAccess ([] : List (Op Key Val × Res Val)))
        ({ capacity_ := capacity, container_ := [] } : LruCache Key Val).container_ :=
      ⟨List.Pairwise.nil, fun e he => by simp at he⟩
    simpa using run_sorted ops (inv_new capacity hcap) h0 h
  refine ⟨hsorted.1, hsorted.2, ?_⟩
  intro key val hk hfull
  have habs := (not_resident_iff s key).mp hk
  obtain ⟨rest, victim, hm⟩ := hi.full_split hfull
  have hset := LruCache.set_absent_full s key val rest victim hm habs hfull
  rw [hc] at hset
  refine ⟨rest, victim, hm, hset, ?_, ?_⟩
  · intro e he
    have hp := hsorted.1
    rw [hm, List.pairwise_append] at hp
    exact hp.2.2 e he victim (by simp)
  · rw [not_resident_iff]
    intro e he
    rcases List.mem_cons.mp he with he | he
    · rw [he]
      exact fun hkv => habs victim (by rw [hm]; simp) hkv.symm
    · have hm' : s.container_ = rest ++ (victim.1, victim.2) :: [] := hm
      exact (hi.split hm').1 e he

theorem lru_victim_witness :
    0 < 2 ∧
    exec 2 [Op.set 1 10, .set 2 20, .get 1] = some ((⟨2, [(1, 10), (2, 20)]⟩ : LruCache Nat Nat),
      [(.set 1 10, .unit), (.set 2 20, .unit), (.get 1, .value (some 10))]) ∧
    ∃ rest victim, [((1 : Nat), (10 : Nat)), (2, 20)] = rest ++ [victim] ∧
      (⟨2, [(1, 10), (2, 20)]⟩ : LruCache Nat Nat).set 3 30 = some ⟨2, (3, 30) :: rest⟩ :=
  have hk : ¬ resident (⟨2, [(1, 10), (2, 20)]⟩ : LruCache Nat Nat) 3 := by
    rw [not_resident_iff]; decide
  match (lru_victim 2 (by decide) ([.set 1 10, .set 2 20, .get 1] : List (Op Nat Nat))
      ⟨2, [(1, 10), (2, 20)]⟩
      [(.set 1 10, .unit), (.set 2 20, .unit), (.get 1, .value (some 10))]
      (by rfl)).2.2 3 30 hk rfl with
  | ⟨rest, victim, h1, h2, _⟩ => ⟨by decide, rfl, rest, victim, h1, h2⟩

/-! ## Key uniqueness -/

theorem count_key_eq_one [DecidableEq Key] {s : LruCache Key Val} (hs : Inv s) {key : Key}
    (hk : resident s key) : s.container_.countP (fun e => decide (e.1 = key)) = 1 := by
  obtain ⟨pre, val, post, hm⟩ := resident_split hk
  have h := Container.left_erase_split pre post key val (hs.split hm).1 (hs.split hm).2
  rw [← hm] at h
  exact congrArg Prod.snd h

/-- C11, key uniqueness: in every state reached from a newly constructed cache no two relations
of the container have equal keys, and each resident key has exactly one relation; two `set`
calls in a row on the same key return and leave exactly one relation with that key. -/
theorem key_uniqueness [DecidableEq Key] (capacity : Nat) (s : LruCache Key Val)
    (hs : Reachable capacity s) :
    (s.container_.map Prod.fst).Nodup ∧
    (∀ key, resident s key → s.container_.countP (fun e => decide (e.1 = key)) = 1) ∧
    (∀ key v1 v2, ∃ s1 s2, s.set key v1 = some s1 ∧ s1.set key v2 = some s2 ∧
      (s1.container_.map Prod.fst).Nodup ∧ (s2.container_.map Prod.fst).Nodup ∧
      s1.container_.countP (fun e => decide (e.1 = key)) = 1 ∧
      s2.container_.countP (fun e => decide (e.1 = key)) = 1) := by
  obtain ⟨hi, _⟩ := hs.inv
  refine ⟨hi.keys_nodup, fun key hk => count_key_eq_one hi hk, ?_⟩
  intro key v1 v2
  obtain ⟨s1, h1, hi1, _⟩ := set_inv hi key v1
  obtain ⟨s2, h2, hi2, _⟩ := set_inv hi1 key v2
  have hr1 : resident s1 key := by
    obtain ⟨tl, ht⟩ := set_front hi key v1
    rw [h1] at ht
    cases ht
    exact ⟨v1, by simp⟩
  have hr2 : resident s2 key := by
    obtain ⟨tl, ht⟩ := set_front hi1 key v2
    rw [h2] at ht
    cases ht
    exact ⟨v2, by simp⟩
  exact ⟨s1, s2, h1, h2, hi1.keys_nodup, hi2.keys_nodup, count_key_eq_one hi1 hr1,
    count_key_eq_one hi2 hr2⟩

theorem key_uniqueness_witness :
    Reachable 2 (⟨2, [(2, 20), (1, 10)]⟩ : LruCache Nat Nat) ∧
    (([((2 : Nat), (20 : Nat)), (1, 10)] : Container Nat Nat).map Prod.fst).Nodup :=
  have hr : Reachable 2 (⟨2, [(2, 20), (1, 10)]⟩ : LruCache Nat Nat) :=
    ⟨[.set 1 10, .set 2 20, .set 1 10, .set 2 20], _, rfl⟩
  ⟨hr, (key_uniqueness 2 _ hr).1⟩

/-! ## Eviction of the first of `capacity + 1` keys -/

theorem run_cons [DecidableEq Key] (s : LruCache Key Val) (op : Op Key Val)
    (ops : List (Op Key Val)) :
    run s (op :: ops) =
      match step s op with
      | none => none
      | some (s', r) =>
        match run s' ops with
        | none => none
        | some (s'', tr) => some (s'', (op, r) :: tr) := rfl

theorem run_append [DecidableEq Key] (s : LruCache Key Val) (a b : List (Op Key Val)) :
    run s (a ++ b) =
      match run s a with
      | none => none
      | some (s1, t1) =>
        match run s1 b with
        | none => none
        | some (s2, t2) => some (s2, t1 ++ t2) := by
  induction a generalizing s with
  | nil =>
    simp only [List.nil_append, run]
    cases run s b with
    | none => rfl
    | some p => simp
  | cons op ops ih =>
    rw [List.cons_append, run_cons, run_cons]
    cases step s op with
    | none => rfl
    | some p =>
      obtain ⟨s', r⟩ := p
      simp only
      rw [ih s']
      cases run s' ops with
      | none => rfl
      | some q =>
        obtain ⟨s1, t1⟩ := q
        simp only
        cases run s1 b with
        | none => rfl
        | some q2 => simp

/-- With distinct keys `get` finds the value of each relation of the container. -/
theorem get_of_mem [DecidableEq Key] (s : LruCache Key Val)
    (hnodup : (s.container_.map Prod.fst).Nodup) (e : Key × Val) (he : e ∈ s.container_) :
    (s.get e.1).2 = some e.2 := by
  obtain ⟨pre, post, hm⟩ := List.append_of_mem he
  have hm' : s.container_ = pre ++ (e.1, e.2) :: post := hm
  rw [LruCache.get_present s e.1 e.2 pre post hm'
    (Container.keys_nodup_split pre post e.1 e.2 (hm' ▸ hnodup)).1]

/-- C12, eviction identity: on a newly constructed cache of capacity `capacity > 0`, setting
`first` and then the `capacity` relations `others`, all keys distinct and no other call in
between, returns and leaves exactly `others` in the container, the last set first. `get` of the
key of `first` then finds nothing and `get` of each other key returns the value set for it. -/
theorem eviction_identity [DecidableEq Key] (capacity : Nat) (hcap : 0 < capacity)
    (first : Key × Val) (others : List (Key × Val)) (hlen : others.length = capacity)
    (hnodup : ((first :: others).map Prod.fst).Nodup) :
    ∃ s tr, exec capacity ((first :: others).map (fun e => Op.set e.1 e.2)) = some (s, tr) ∧
      s = { capacity_ := capacity, container_ := others.reverse } ∧
      (s.get first.1).2 = none ∧ ∀ e ∈ others, (s.get e.1).2 = some e.2 := by
  have hne : others ≠ [] := by
    intro h
    rw [h] at hlen
    simp at hlen
    omega
  obtain ⟨mid, last, hsplit⟩ : ∃ mid last, others = mid ++ [last] :=
    ⟨others.dropLast, others.getLast hne, (List.dropLast_append_getLast hne).symm⟩
  subst hsplit
  have hnd : ((first :: mid).map Prod.fst).Nodup ∧ ∀ e ∈ first :: mid, e.1 ≠ last.1 := by
    have h2 : List.map Prod.fst (first :: (mid ++ [last])) =
        List.map Prod.fst (first :: mid) ++ [last.1] := by simp
    rw [h2, List.nodup_append] at hnodup
    refine ⟨hnodup.1, ?_⟩
    intro e he hk
    exact hnodup.2.2 (List.mem_map_of_mem Prod.fst he) (by simp [hk])
  have hothers : (((mid ++ [last]).reverse).map Prod.fst).Nodup ∧
      ∀ e ∈ (mid ++ [last]).reverse, e.1 ≠ first.1 := by
    simp only [List.map_cons, List.nodup_cons] at hnodup
    refine ⟨?_, ?_⟩
    · rw [List.map_reverse]
      exact List.nodup_reverse.mpr hnodup.2
    · intro e he hk
      exact hnodup.1 (hk ▸ List.mem_map_of_mem Prod.fst (List.mem_reverse.mp he))
  obtain ⟨tr1, h1⟩ := run_sets_room (first :: mid)
    ({ capacity_ := capacity, container_ := [] } : LruCache Key Val) hnd.1 (by simp)
    (by simp only [List.length_append, List.length_cons, List.length_nil] at hlen ⊢; omega)
  simp only [List.append_nil, List.reverse_cons] at h1
  have h2 := LruCache.set_absent_full
    ({ capacity_ := capacity, container_ := mid.reverse ++ [first] } : LruCache Key Val)
    last.1 last.2 mid.reverse first rfl
    (by
      intro e he
      exact hnd.2 e (by simpa [or_comm] using he))
    (by simp only [List.length_append, List.length_cons, List.length_nil,
          List.length_reverse] at hlen ⊢; omega)
  have hops : (first :: (mid ++ [last])).map (fun e => Op.set e.1 e.2) =
      (first :: mid).map (fun e => Op.set e.1 e.2) ++ [Op.set last.1 last.2] := by simp
  refine ⟨{ capacity_ := capacity, container_ := (mid ++ [last]).reverse },
    tr1 ++ [(Op.set last.1 last.2, Res.unit)], ?_, rfl, ?_, ?_⟩
  · rw [exec_pos capacity hcap, hops, run_append, h1]
    simp [run, step, h2]
  · rw [LruCache.get_absent _ first.1 hothers.2]
  · intro e he
    exact get_of_mem _ hothers.1 e (List.mem_reverse.mpr he)

theorem eviction_identity_witness :
    0 < 2 ∧ ∃ s tr, exec 2 ([((1 : Nat), (10 : Nat)), (2, 20), (3, 30)].map
        (fun e => Op.set e.1 e.2)) = some (s, tr) ∧
      s = ⟨2, [(3, 30), (2, 20)]⟩ ∧ (s.get 1).2 = none ∧
      ∀ e ∈ [((2 : Nat), (20 : Nat)), (3, 30)], (s.get e.1).2 = some e.2 :=
  ⟨by decide, eviction_identity 2 (by decide) (1, 10) [(2, 20), (3, 30)] rfl (by decide)⟩

/-! ## Recency of two keys -/

/-- Sets of keys other than `k1` and `k2` return and leave, among the relations of `k1` and
`k2`, an initial part of what was there: the last of them goes first. -/
theorem run_sets_others [DecidableEq Key] (k1 k2 : Key) (base : Container Key Val)
    (news : List (Key × Val)) (hnew : ∀ e ∈ news, e.1 ≠ k1 ∧ e.1 ≠ k2)
    (s : LruCache Key Val) (hs : Inv s)
    (hbase : ∃ t, s.container_.filter (fun e => decide (e.1 = k1 ∨ e.1 = k2)) ++ t = base) :
    ∃ s' tr, run s (news.map (fun e => Op.set e.1 e.2)) = some (s', tr) ∧ Inv s' ∧
      s'.capacity_ = s.capacity_ ∧
      ∃ t, s'.container_.filter (fun e => decide (e.1 = k1 ∨ e.1 = k2)) ++ t = base := by
  induction news generalizing s with
  | nil => exact ⟨s, [], rfl, hs, rfl, hbase⟩
  | cons e news ih =>
    obtain ⟨hk1, hk2⟩ := hnew e (by simp)
    obtain ⟨s1, hset, hi1, hc1⟩ := set_inv hs e.1 e.2
    have hb1 : ∃ t, s1.container_.filter (fun x => decide (x.1 = k1 ∨ x.1 = k2)) ++ t = base := by
      obtain ⟨t, ht⟩ := hbase
      rcases set_cases hs e.1 e.2 with ⟨pre, v0, post, hm, h⟩ | ⟨_, _, h⟩ |
          ⟨_, _, rest, victim, hm, h⟩
      all_goals
        rw [hset] at h
        cases h
      · refine ⟨t, ?_⟩
        rw [hm] at ht
        simpa [List.filter_append, List.filter_cons, hk1, hk2] using ht
      · refine ⟨t, ?_⟩
        simpa [List.filter_cons, hk1, hk2] using ht
      · refine ⟨List.filter (fun x => decide (x.1 = k1 ∨ x.1 = k2)) [victim] ++ t, ?_⟩
        rw [hm, List.filter_append, List.append_assoc] at ht
        simpa [List.filter_cons, hk1, hk2] using ht
    obtain ⟨s2, tr, hrun, hi2, hc2, hb2⟩ := ih (fun x hx => hnew x (by simp [hx])) s1 hi1 hb1
    exact ⟨s2, (Op.set e.1 e.2, Res.unit) :: tr, by simp [run, step, hset, hrun], hi2,
      hc2.trans hc1, hb2⟩

/-- C13, recency correctness: on a newly constructed cache of capacity at least 2, after
`set k1 v1`, `set k2 v2`, `get k1` with `k1 ≠ k2` the `get` has returned `v1`, the container is
`(k1, v1)` in front of `(k2, v2)`, and `k1` was accessed later than `k2`. After any further
sets of keys other than `k1` and `k2` the run has returned and the relations of `k1` and `k2`
left in the container are an initial part of `[(k1, v1), (k2, v2)]`: `k2` goes before `k1`, and
`k1` is resident whenever `k2` is. -/
theorem recency_correctness [DecidableEq Key] (capacity : Nat) (hcap : 2 ≤ capacity)
    (k1 k2 : Key) (hne : k1 ≠ k2) (v1 v2 : Val) (news : List (Key × Val))
    (hnew : ∀ e ∈ news, e.1 ≠ k1 ∧ e.1 ≠ k2) :
    exec capacity [Op.set k1 v1, .set k2 v2, .get k1] =
      some ({ capacity_ := capacity, container_ := [(k1, v1), (k2, v2)] },
        [(.set k1 v1, .unit), (.set k2 v2, .unit), (.get k1, .value (some v1))]) ∧
    lastAccess [(Op.set k1 v1, Res.unit), (.set k2 v2, .unit), (.get k1, .value (some v1))] k2 <
      lastAccess [(Op.set k1 v1, Res.unit), (.set k2 v2, .unit), (.get k1, .value (some v1))] k1 ∧
    ∃ s tr, exec capacity ([Op.set k1 v1, .set k2 v2, .get k1] ++
        news.map (fun e => Op.set e.1 e.2)) = some (s, tr) ∧
      (∃ t, s.container_.filter (fun e => decide (e.1 = k1 ∨ e.1 = k2)) ++ t =
        [(k1, v1), (k2, v2)]) ∧
      (resident s k2 → resident s k1) := by
  have hpos : 0 < capacity := by omega
  have h1 := LruCache.set_absent_room
    ({ capacity_ := capacity, container_ := [] } : LruCache Key Val) k1 v1 (by simp)
    (by simp only [List.length_nil]; omega)
  have h2 := LruCache.set_absent_room
    ({ capacity_ := capacity, container_ := [(k1, v1)] } : LruCache Key Val) k2 v2
    (by simpa using hne) (by simp only [List.length_cons, List.length_nil]; omega)
  have h3 := LruCache.get_present
    ({ capacity_ := capacity, container_ := [(k2, v2), (k1, v1)] } : LruCache Key Val) k1 v1
    [(k2, v2)] [] rfl (by simpa using hne.symm)
  have hrun : run ({ capacity_ := capacity, container_ := [] } : LruCache Key Val)
      [Op.set k1 v1, .set k2 v2, .get k1] =
      some ({ capacity_ := capacity, container_ := [(k1, v1), (k2, v2)] },
        [(.set k1 v1, .unit), (.set k2 v2, .unit), (.get k1, .value (some v1))]) := by
    simp [run, step, h1, h2, h3]
  have hinv : Inv ({ capacity_ := capacity, container_ := [(k1, v1), (k2, v2)] } :
      LruCache Key Val) := by
    refine ⟨hpos, by simpa using hcap, ?_⟩
    simp [hne]
  refine ⟨by rw [exec_pos capacity hpos, hrun], ?_, ?_⟩
  · simp [lastAccess, lastAccessRev, accessed, hne]
  · obtain ⟨s, tr, hr, _, _, t, ht⟩ := run_sets_others k1 k2 [(k1, v1), (k2, v2)] news hnew _ hinv
      ⟨[], by simp [List.filter_cons]⟩
    refine ⟨s, [(.set k1 v1, .unit), (.set k2 v2, .unit), (.get k1, .value (some v1))] ++ tr,
      by rw [exec_pos capacity hpos, run_append, hrun]; simp only [hr], ⟨t, ht⟩, ?_⟩
    rintro ⟨v, hv⟩
    have hmem : (k2, v) ∈ s.container_.filter (fun e => decide (e.1 = k1 ∨ e.1 = k2)) := by
      simp [List.mem_filter, hv]
    have hk : (k1, v1) ∈ s.container_.filter (fun e => decide (e.1 = k1 ∨ e.1 = k2)) := by
      generalize s.container_.filter (fun e => decide (e.1 = k1 ∨ e.1 = k2)) = l at ht hmem
      match l, ht, hmem with
      | [], _, hmem => simp at hmem
      | [a], ht, hmem =>
        simp only [List.cons_append, List.nil_append, List.cons.injEq] at ht
        simp only [List.mem_singleton] at hmem
        rw [ht.1] at hmem
        exact absurd (congrArg Prod.fst hmem).symm hne
      | a :: b :: l', ht, _ =>
        simp only [List.cons_append, List.cons.injEq] at ht
        rw [ht.1]
        simp
    exact ⟨v1, (List.mem_filter.mp hk).1⟩

theorem recency_correctness_witness :
    2 ≤ 2 ∧ 'a' ≠ 'b' ∧ (∀ e ∈ [('c', 3)], e.1 ≠ 'a' ∧ e.1 ≠ 'b') ∧
    exec 2 [Op.set 'a' 1, .set 'b' 2, .get 'a', .set 'c' 3, .get 'b', .get 'a', .get 'c'] =
      some ((⟨2, [('c', 3), ('a', 1)]⟩ : LruCache Char Nat),
        [(.set 'a' 1, .unit), (.set 'b' 2, .unit), (.get 'a', .value (some 1)),
         (.set 'c' 3, .unit), (.get 'b', .value none), (.get 'a', .value (some 1)),
         (.get 'c', .value (some 3))]) ∧
    ∃ s tr, exec 2 ([Op.set 'a' 1, .set 'b' 2, .get 'a'] ++
        [('c', 3)].map (fun e => Op.set e.1 e.2)) = some (s, tr) ∧
      ((resident s 'b' → resident s 'a') : Prop) :=
  have hnew : ∀ e ∈ [('c', 3)], e.1 ≠ 'a' ∧ e.1 ≠ 'b' := by decide
  match recency_correctness 2 (by decide) 'a' 'b' (by decide) 1 2 [('c', 3)] hnew with
  | ⟨_, _, s, tr, h1, _, h2⟩ => ⟨by decide, by decide, hnew, by decide, s, tr, h1, h2⟩

/-! ## Construction and assertions -/

/-- C14, construction and capacity 0: in the build that checks `assert` the constructor has no
result for capacity 0 and has one exactly for a positive capacity, so there no sequence of
calls runs on a cache of capacity 0 and no state of such a cache is reachable. In the build
with `NDEBUG` the constructor returns the empty cache for every capacity, 0 included. For a
positive capacity both builds construct the same empty cache. -/
theorem ctor_rejects_zero [DecidableEq Key] :
    (LruCache.ctor_build false 0 : Option (LruCache Key Val)) = none ∧
    (∀ capacity, (∃ s : LruCache Key Val, LruCache.ctor_build false capacity = some s) ↔
      0 < capacity) ∧
    (∀ capacity, (LruCache.ctor capacity : Option (LruCache Key Val)) =
      LruCache.ctor_build false capacity) ∧
    (∀ ops : List (Op Key Val), exec 0 ops = none) ∧
    (∀ s : LruCache Key Val, ¬ Reachable 0 s) ∧
    (∀ capacity, (LruCache.ctor_build true capacity : Option (LruCache Key Val)) =
      some { capacity_ := capacity, container_ := [] }) ∧
    (∀ NDEBUG capacity, 0 < capacity →
      (LruCache.ctor_build NDEBUG capacity : Option (LruCache Key Val)) =
        some { capacity_ := capacity, container_ := [] }) := by
  refine ⟨rfl, ?_, fun _ => rfl, exec_zero, ?_, fun _ => rfl, ?_⟩
  · intro capacity
    constructor
    · rintro ⟨s, hs⟩
      rcases Nat.eq_zero_or_pos capacity with h0 | hp
      · subst h0; simp [LruCache.ctor_build] at hs
      · exact hp
    · intro hp
      exact ⟨_, ctor_pos capacity hp⟩
  · intro s hs
    exact absurd hs.cap_pos (by decide)
  · intro NDEBUG capacity hp
    cases NDEBUG with
    | true => rfl
    | false => exact ctor_pos capacity hp

/-- C14 as stated fails in the build with `NDEBUG`: the constructor returns a cache of
capacity 0, and `get`, `erase` and `clear` called on it return. -/
theorem ctor_zero_ndebug :
    (LruCache.ctor_build true 0 : Option (LruCache Nat Nat)) = some ⟨0, []⟩ ∧
    (⟨0, []⟩ : LruCache Nat Nat).get 7 = (⟨0, []⟩, none) ∧
    (⟨0, []⟩ : LruCache Nat Nat).erase 7 = some (⟨0, []⟩, false) ∧
    (⟨0, []⟩ : LruCache Nat Nat).clear = ⟨0, []⟩ := by
  decide

/-- C19, assertions hold: in a reachable state of a cache constructed with a positive
capacity, (1) when `set` finds no relation for its key and the container full, `right.end()`
has a relation in front of it, erasing that last relation returns the new `right.end()`, as
the assertion in `set` asks, and `set` returns; (2) `left.erase` removes fewer than 2
relations, so the assertion in `erase` holds and `erase` returns. In a state with capacity 0
and an empty container `set` enters the eviction branch with nothing to erase and has no
result. -/
theorem assertions_hold [DecidableEq Key] (capacity : Nat) (s : LruCache Key Val)
    (hs : Reachable capacity s) (key : Key) (val : Val) :
    (s.container_.left_find key = none → s.container_.size = s.capacity_ →
      s.container_ ≠ [] ∧
      ∃ last, s.container_.right_end = last + 1 ∧
        (s.container_.right_erase last).2 = (s.container_.right_erase last).1.right_end) ∧
    (∃ s', s.set key val = some s') ∧
    (s.container_.left_erase key).2 < 2 ∧
    (∃ s' b, s.erase key = some (s', b)) ∧
    ({ capacity_ := 0, container_ := [] } : LruCache Key Val).set key val = none := by
  obtain ⟨hi, _⟩ := hs.inv
  refine ⟨?_, ?_, ?_, ?_, ?_⟩
  · intro _ hfull
    obtain ⟨rest, victim, hm⟩ := hi.full_split hfull
    refine ⟨by rw [hm]; simp, rest.length, by rw [hm]; simp [Container.right_end], ?_⟩
    rw [hm]
    have he : (rest ++ [victim]).eraseIdx rest.length = rest := by
      simpa using Container.eraseIdx_split rest [] victim
    simp only [Container.right_erase, Container.right_end, he]
  · obtain ⟨s', h, _⟩ := set_inv hi key val
    exact ⟨s', h⟩
  · rcases erase_cases hi key with ⟨pre, v0, post, hm, _⟩ | ⟨habs, _⟩
    · rw [hm, Container.left_erase_split pre post key v0 (hi.split hm).1 (hi.split hm).2]
      exact Nat.lt_succ_self 1
    · rw [Container.left_erase_absent s.container_ key habs]
      exact Nat.succ_pos 1
  · obtain ⟨s', b, h, _⟩ := erase_inv hi key
    exact ⟨s', b, h⟩
  · simp [LruCache.set, Container.left_find, Container.size, Container.right_end]

theorem assertions_hold_witness :
    Reachable 2 (⟨2, [(2, 20), (1, 10)]⟩ : LruCache Nat Nat) ∧
    (∃ s', (⟨2, [(2, 20), (1, 10)]⟩ : LruCache Nat Nat).set 3 30 = some s') ∧
    (Container.left_erase [((2 : Nat), (20 : Nat)), (1, 10)] 1).2 < 2 ∧
    (⟨0, []⟩ : LruCache Nat Nat).set 3 30 = none :=
  have hr : Reachable 2 (⟨2, [(2, 20), (1, 10)]⟩ : LruCache Nat Nat) :=
    ⟨[.set 1 10, .set 2 20], _, rfl⟩
  match assertions_hold 2 _ hr 3 30 with
  | ⟨_, h2, _, _, h5⟩ => ⟨hr, h2, (assertions_hold 2 _ hr 1 30).2.2.1, h5⟩

/-! ## The benchmark driver -/

theorem length_le_dedup [DecidableEq Key] (l allkeys : List Key) (hn : l.Nodup)
    (hsub : ∀ k ∈ l, k ∈ allkeys) : l.length ≤ allkeys.dedup.length :=
  (List.subperm_of_subset hn (fun k hk => List.mem_dedup.mpr (hsub k hk))).length_le

/-- A `set` of a listed key, on a container of distinct listed keys in a cache with room for
all listed keys, drops nothing. -/
theorem set_listed [DecidableEq Key] (allkeys : List Key) {s : LruCache Key Val}
    (hn : (s.container_.map Prod.fst).Nodup) (hin : ∀ e ∈ s.container_, e.1 ∈ allkeys)
    (hd : allkeys.dedup.length ≤ s.capacity_) (key : Key) (hk : key ∈ allkeys) (val : Val) :
    ∃ s', s.set key val = some s' ∧ (s'.container_.map Prod.fst).Nodup ∧
      (∀ e ∈ s'.container_, e.1 ∈ allkeys) ∧ s'.capacity_ = s.capacity_ ∧
      resident s' key ∧ ∀ k, resident s k → resident s' k := by
  have hlen : s.container_.length ≤ allkeys.dedup.length := by
    have := length_le_dedup (s.container_.map Prod.fst) allkeys hn (by
      intro k hk'
      obtain ⟨e, he, rfl⟩ := List.mem_map.mp hk'
      exact hin e he)
    simpa using this
  have hpos : 0 < s.capacity_ :=
    Nat.lt_of_lt_of_le (List.length_pos_of_mem (List.mem_dedup.mpr hk)) hd
  have hi : Inv s := ⟨hpos, Nat.le_trans hlen hd, hn⟩
  rcases set_cases hi key val with ⟨pre, v0, post, hm, h⟩ | ⟨habs, _, h⟩ |
      ⟨habs, hfull, _, _, _, _⟩
  · refine ⟨_, h, (hi.to_front val hm).keys_nodup, ?_, rfl, ⟨val, by simp⟩, ?_⟩
    · intro e he
      rcases List.mem_cons.mp he with he | he
      · rw [he]; exact hk
      · exact hin e (hm ▸ (split_sublist pre post (key, v0)).subset he)
    · rintro k ⟨v, hv⟩
      rw [hm] at hv
      rcases List.mem_append.mp hv with hv | hv
      · exact ⟨v, by simp [hv]⟩
      · rcases List.mem_cons.mp hv with hv | hv
        · have hkk : k = key := congrArg Prod.fst hv
          exact ⟨val, by rw [hkk]; simp⟩
        · exact ⟨v, by simp [hv]⟩
  · refine ⟨_, h, ?_, ?_, rfl, ⟨val, by simp⟩, ?_⟩
    · simp only [List.map_cons, List.nodup_cons, List.mem_map, not_exists, not_and]
      exact ⟨fun e he => habs e he, hn⟩
    · intro e he
      rcases List.mem_cons.mp he with he | he
      · rw [he]; exact hk
      · exact hin e he
    · rintro k ⟨v, hv⟩
      exact ⟨v, by simp [hv]⟩
  · exfalso
    have hn' : (key :: s.container_.map Prod.fst).Nodup := by
      simp only [List.nodup_cons, List.mem_map, not_exists, not_and]
      exact ⟨fun e he => habs e he, hn⟩
    have := length_le_dedup (key :: s.container_.map Prod.fst) allkeys hn' (by
      intro k hk'
      rcases List.mem_cons.mp hk' with hk' | hk'
      · rw [hk']; exact hk
      · obtain ⟨e, he, rfl⟩ := List.mem_map.mp hk'
        exact hin e he)
    simp only [List.length_cons, List.length_map] at this
    omega

theorem populate_listed [DecidableEq Key] (allkeys : List Key) (payload : Val) (l : List Key)
    (hl : ∀ k ∈ l, k ∈ allkeys) (s : LruCache Key Val)
    (hn : (s.container_.map Prod.fst).Nodup) (hin : ∀ e ∈ s.container_, e.1 ∈ allkeys)
    (hd : allkeys.dedup.length ≤ s.capacity_) :
    ∃ s', populate_cache s payload l = some s' ∧ (s'.container_.map Prod.fst).Nodup ∧
      (∀ k ∈ l, resident s' k) ∧ ∀ k, resident s k → resident s' k := by
  induction l generalizing s with
  | nil => exact ⟨s, rfl, hn, by simp, fun _ h => h⟩
  | cons key l ih =>
    obtain ⟨s1, h1, hn1, hin1, hc1, hr1, hmono1⟩ :=
      set_listed allkeys hn hin hd key (hl key (by simp)) payload
    obtain ⟨s2, h2, hn2, hr2, hmono2⟩ :=
      ih (fun k hk => hl k (by simp [hk])) s1 hn1 hin1 (hc1 ▸ hd)
    refine ⟨s2, by simp [populate_cache, h1, h2], hn2, ?_, fun k hk => hmono2 k (hmono1 k hk)⟩
    intro k hk
    rcases List.mem_cons.mp hk with hk | hk
    · rw [hk]; exact hmono2 key hr1
    · exact hr2 k hk

/-- A `get` of a resident key returns a value and permutes the container. -/
theorem get_hit_perm [DecidableEq Key] (s : LruCache Key Val)
    (hn : (s.container_.map Prod.fst).Nodup) (key : Key) (hk : resident s key) :
    (∃ v, (s.get key).2 = some v) ∧ List.Perm (s.get key).1.container_ s.container_ := by
  obtain ⟨pre, v0, post, hm⟩ := resident_split hk
  have h := LruCache.get_present s key v0 pre post hm
    (Container.keys_nodup_split pre post key v0 (hm ▸ hn)).1
  rw [h, hm]
  exact ⟨⟨v0, rfl⟩, List.perm_middle.symm⟩

theorem resident_of_perm {s s' : LruCache Key Val}
    (hp : List.Perm s'.container_ s.container_) (key : Key) (hk : resident s key) :
    resident s' key := by
  obtain ⟨v, hv⟩ := hk
  exact ⟨v, hp.mem_iff.mpr hv⟩

theorem run_gets_hit [DecidableEq Key] (gets : List Key) (s : LruCache Key Val)
    (hn : (s.container_.map Prod.fst).Nodup) (hres : ∀ k ∈ gets, resident s k) :
    ∃ s' tr, run s (gets.map Op.get) = some (s', tr) ∧
      ∀ x ∈ tr, ∃ k v, x = (Op.get k, Res.value (some v)) := by
  induction gets generalizing s with
  | nil => exact ⟨s, [], rfl, by simp⟩
  | cons key gets ih =>
    obtain ⟨⟨v, hv⟩, hp⟩ := get_hit_perm s hn key (hres key (by simp))
    obtain ⟨s2, tr, h2, hall⟩ := ih (s.get key).1 ((hp.map Prod.fst).nodup_iff.mpr hn)
      (fun k hk => resident_of_perm hp k (hres k (by simp [hk])))
    refine ⟨s2, (Op.get key, Res.value (some v)) :: tr, by simp [run, step, h2, hv], ?_⟩
    intro x hx
    rcases List.mem_cons.mp hx with hx | hx
    · exact ⟨key, v, hx⟩
    · exact hall x hx

theorem do_gets_loop_hit [DecidableEq Key] (keys : List Key) (hne : keys ≠ [])
    (remaining : Nat) (i : Nat) (s : LruCache Key Val)
    (hn : (s.container_.map Prod.fst).Nodup) (hres : ∀ k ∈ keys, resident s k) :
    ∃ s', do_gets_loop keys s i remaining = some s' := by
  induction remaining generalizing s i with
  | zero => exact ⟨s, rfl⟩
  | succ n ih =>
    have hlen : 0 < keys.length := List.length_pos.mpr hne
    have hlt : i % keys.length < keys.length := Nat.mod_lt i hlen
    have hkey : keys[i % keys.length]? = some (keys.get ⟨i % keys.length, hlt⟩) :=
      List.getElem?_eq_getElem hlt
    have hmem : keys.get ⟨i % keys.length, hlt⟩ ∈ keys := List.get_mem keys _ _
    obtain ⟨⟨v, hv⟩, hp⟩ := get_hit_perm s hn _ (hres _ hmem)
    obtain ⟨s', h'⟩ := ih (i + 1) (s.get (keys.get ⟨i % keys.length, hlt⟩)).1
      ((hp.map Prod.fst).nodup_iff.mpr hn) (fun k hk => resident_of_perm hp k (hres k hk))
    refine ⟨s', ?_⟩
    simp only [do_gets_loop, Nat.ne_of_gt hlen, if_false, hkey, hv, Option.isSome_some, if_true]
    exact h'

/-- C15, benchmark hits: for every capacity and every list `keys` with at most `capacity`
distinct keys, `populate_cache` on the empty cache returns; afterwards every sequence of `get`
calls on keys of the list, in any order and number and with no other call, returns a value at
each call, and `do_gets` over a non-empty `keys` runs through any number of rounds without its
`assert(result)` failing. -/
theorem benchmark_hits [DecidableEq Key] (capacity : Nat) (keys : List Key) (payload : Val)
    (hdistinct : keys.dedup.length ≤ capacity) (gets : List Key)
    (hgets : ∀ k ∈ gets, k ∈ keys) :
    ∃ s, populate_cache { capacity_ := capacity, container_ := [] } payload keys = some s ∧
      (∀ k ∈ keys, resident s k) ∧
      (∃ s' tr, run s (gets.map Op.get) = some (s', tr) ∧
        ∀ x ∈ tr, ∃ k v, x = (Op.get k, Res.value (some v))) ∧
      (keys ≠ [] → ∀ op_count, ∃ s', do_gets keys s op_count = some s') := by
  obtain ⟨s, hpop, hn, hres, _⟩ := populate_listed keys payload keys (fun _ h => h)
    ({ capacity_ := capacity, container_ := [] } : LruCache Key Val) (by simp) (by simp)
    hdistinct
  refine ⟨s, hpop, hres, run_gets_hit gets s hn (fun k hk => hres k (hgets k hk)), ?_⟩
  intro hne op_count
  exact do_gets_loop_hit keys hne op_count 0 s hn hres

theorem benchmark_hits_witness :
    ([1, 2, 1, 3] : List Nat).dedup.length ≤ 3 ∧ (∀ k ∈ [3, 1, 1, 2], k ∈ [1, 2, 1, 3]) ∧
    ∃ s, populate_cache ({ capacity_ := 3, container_ := [] } : LruCache Nat Nat) 120
        [1, 2, 1, 3] = some s ∧
      (∃ s' tr, run s (([3, 1, 1, 2] : List Nat).map Op.get) = some (s', tr) ∧
        ∀ x ∈ tr, ∃ k v, x = (Op.get k, Res.value (some v))) ∧
      (([1, 2, 1, 3] : List Nat) ≠ [] →
        ∀ op_count, ∃ s', do_gets [1, 2, 1, 3] s op_count = some s') :=
  have h1 : ([1, 2, 1, 3] : List Nat).dedup.length ≤ 3 := by decide
  have h2 : ∀ k ∈ [3, 1, 1, 2], k ∈ [1, 2, 1, 3] := by decide
  match benchmark_hits 3 [1, 2, 1, 3] (120 : Nat) h1 [3, 1, 1, 2] h2 with
  | ⟨s, h3, _, h4, h5⟩ => ⟨h1, h2, s, h3, h4, h5⟩

/-! ## The lock -/

theorem null_mutex_lawful : null_mutex.Lawful := ⟨(), rfl, rfl⟩

theorem std_mutex_lawful : std_mutex.Lawful := ⟨true, rfl, rfl⟩

theorem cs_mutex_lawful (SpinCount : Nat) : (cs_mutex SpinCount).Lawful :=
  ⟨(1 : Nat), rfl, rfl⟩

theorem srw_mutex_lawful : srw_mutex.Lawful := ⟨true, rfl, rfl⟩

/-- With a lawful lock that is free, `set` with its lock does to the cache what `set` does,
between one `lock`, some calls on the container, and one `unlock`. -/
theorem locked_set_eq [DecidableEq Key] (M : Mutex) (hM : M.Lawful) (s : LruCache Key Val)
    (key : Key) (val : Val) :
    ∃ n, 0 < n ∧ Locked.set M { cache := s, mutex_ := M.init } key val =
      (s.set key val).map (fun s' => (({ cache := s', mutex_ := M.init } : Locked M Key Val), (),
        Event.lock :: (List.replicate n Event.access ++ [Event.unlock]))) := by
  obtain ⟨owned, hl, hu⟩ := hM
  obtain ⟨cap, m⟩ := s
  cases hfind : Container.left_find m key with
  | some left_iter =>
    refine ⟨3, by decide, ?_⟩
    simp [Locked.set, Locked.enter, Locked.leave, Running.set, Running.lock_guard,
      Running.lock, Running.unlock, Running.call, LruCache.set, hl, hu, hfind, List.replicate]
  | none =>
    by_cases hsize : Container.size m = cap
    · cases hend : Container.right_end m with
      | zero =>
        refine ⟨1, by decide, ?_⟩
        simp [Locked.set, Locked.enter, Locked.leave, Running.set, Running.lock_guard,
          Running.lock, Running.unlock, Running.call, LruCache.set, hl, hu, hfind, hsize, hend]
      | succ last =>
        by_cases hassert : (Container.right_erase m last).2 =
            Container.right_end (Container.right_erase m last).1
        · refine ⟨6, by decide, ?_⟩
          simp [Locked.set, Locked.enter, Locked.leave, Running.set, Running.lock_guard,
            Running.lock, Running.unlock, Running.call, LruCache.set, hl, hu, hfind, hsize, hend,
            hassert, List.replicate]
        · refine ⟨1, by decide, ?_⟩
          simp [Locked.set, Locked.enter, Locked.leave, Running.set, Running.lock_guard,
            Running.lock, Running.unlock, Running.call, LruCache.set, hl, hu, hfind, hsize, hend,
            hassert]
    · refine ⟨3, by decide, ?_⟩
      simp [Locked.set, Locked.enter, Locked.leave, Running.set, Running.lock_guard,
        Running.lock, Running.unlock, Running.call, LruCache.set, hl, hu, hfind, hsize,
        List.replicate]

theorem locked_get_eq [DecidableEq Key] (M : Mutex) (hM : M.Lawful) (s : LruCache Key Val)
    (key : Key) :
    ∃ n, 0 < n ∧ Locked.get M { cache := s, mutex_ := M.init } key =
      some (({ cache := (s.get key).1, mutex_ := M.init } : Locked M Key Val), (s.get key).2,
        Event.lock :: (List.replicate n Event.access ++ [Event.unlock])) := by
  obtain ⟨owned, hl, hu⟩ := hM
  obtain ⟨cap, m⟩ := s
  cases hfind : Container.left_find m key with
  | some left_iter =>
    refine ⟨3, by decide, ?_⟩
    simp [Locked.get, Locked.enter, Locked.leave, Running.get, Running.lock_guard,
      Running.lock, Running.unlock, Running.call, LruCache.get, hl, hu, hfind, List.replicate]
  | none =>
    refine ⟨1, by decide, ?_⟩
    simp [Locked.get, Locked.enter, Locked.leave, Running.get, Running.lock_guard,
      Running.lock, Running.unlock, Running.call, LruCache.get, hl, hu, hfind, List.replicate]

theorem locked_erase_eq [DecidableEq Key] (M : Mutex) (hM : M.Lawful) (s : LruCache Key Val)
    (key : Key) :
    ∃ n, 0 < n ∧ Locked.erase M { cache := s, mutex_ := M.init } key =
      (s.erase key).map (fun r => (({ cache := r.1, mutex_ := M.init } : Locked M Key Val), r.2,
        Event.lock :: (List.replicate n Event.access ++ [Event.unlock]))) := by
  obtain ⟨owned, hl, hu⟩ := hM
  obtain ⟨cap, m⟩ := s
  refine ⟨1, by decide, ?_⟩
  by_cases hassert : (Container.left_erase m key).2 < 2
  · simp [Locked.erase, Locked.enter, Locked.leave, Running.erase, Running.lock_guard,
      Running.lock, Running.unlock, Running.call, LruCache.erase, hl, hu, hassert,
      List.replicate]
  · simp [Locked.erase, Locked.enter, Locked.leave, Running.erase, Running.lock_guard,
      Running.lock, Running.unlock, Running.call, LruCache.erase, hl, hu, hassert]

theorem locked_clear_eq (M : Mutex) (hM : M.Lawful) (s : LruCache Key Val) :
    ∃ n, 0 < n ∧ Locked.clear M { cache := s, mutex_ := M.init } =
      some (({ cache := s.clear, mutex_ := M.init } : Locked M Key Val), (),
        Event.lock :: (List.replicate n Event.access ++ [Event.unlock])) := by
  obtain ⟨owned, hl, hu⟩ := hM
  obtain ⟨cap, m⟩ := s
  refine ⟨1, by decide, ?_⟩
  simp [Locked.clear, Locked.enter, Locked.leave, Running.clear, Running.lock_guard,
    Running.lock, Running.unlock, Running.call, LruCache.clear, hl, hu, List.replicate]

/-- With a lawful lock that is free, a call with its lock does what the call does, between one
`lock`, at least one call on the container, and one `unlock`. -/
theorem locked_step_eq [DecidableEq Key] (M : Mutex) (hM : M.Lawful) (s : LruCache Key Val)
    (op : Op Key Val) :
    ∃ n, 0 < n ∧ Locked.step M { cache := s, mutex_ := M.init } op =
      (step s op).map (fun r => (({ cache := r.1, mutex_ := M.init } : Locked M Key Val), r.2,
        Event.lock :: (List.replicate n Event.access ++ [Event.unlock]))) := by
  cases op with
  | set key val =>
    obtain ⟨n, hn, h⟩ := locked_set_eq M hM s key val
    refine ⟨n, hn, ?_⟩
    simp only [Locked.step, h, step]
    cases s.set key val <;> rfl
  | get key =>
    obtain ⟨n, hn, h⟩ := locked_get_eq M hM s key
    refine ⟨n, hn, ?_⟩
    simp only [Locked.step, h, step, Option.map_some']
  | erase key =>
    obtain ⟨n, hn, h⟩ := locked_erase_eq M hM s key
    refine ⟨n, hn, ?_⟩
    simp only [Locked.step, h, step]
    cases s.erase key with
    | none => rfl
    | some p => rfl
  | clear =>
    obtain ⟨n, hn, h⟩ := locked_clear_eq M hM s
    refine ⟨n, hn, ?_⟩
    simp only [Locked.step, h, step, Option.map_some']

theorem locked_run_eq [DecidableEq Key] (M : Mutex) (hM : M.Lawful) (s : LruCache Key Val)
    (ops : List (Op Key Val)) :
    ∃ ns : List Nat, ns.length = ops.length ∧ (∀ n ∈ ns, 0 < n) ∧
      Locked.run M { cache := s, mutex_ := M.init } ops =
        (run s ops).map (fun r => (({ cache := r.1, mutex_ := M.init } : Locked M Key Val), r.2,
          (ns.map (fun n => Event.lock :: (List.replicate n Event.access ++
            [Event.unlock]))).flatten)) := by
  induction ops generalizing s with
  | nil => exact ⟨[], rfl, by simp, rfl⟩
  | cons op ops ih =>
    obtain ⟨n, hn, hstep⟩ := locked_step_eq M hM s op
    cases h1 : step s op with
    | none =>
      refine ⟨n :: List.replicate ops.length 1, by simp, ?_, ?_⟩
      · intro k hk
        rcases List.mem_cons.mp hk with hk | hk
        · rw [hk]; exact hn
        · rw [(List.mem_replicate.mp hk).2]; exact Nat.one_pos
      · rw [h1] at hstep
        simp [Locked.run, hstep, run, h1]
    | some p =>
      obtain ⟨s1, r⟩ := p
      obtain ⟨ns, hlen, hpos, hrun⟩ := ih s1
      refine ⟨n :: ns, by simp [hlen], ?_, ?_⟩
      · intro k hk
        rcases List.mem_cons.mp hk with hk | hk
        · rw [hk]; exact hn
        · exact hpos k hk
      · rw [h1] at hstep
        simp only [Option.map_some'] at hstep
        simp only [Locked.run, hstep, hrun, run, h1]
        cases run s1 ops with
        | none => rfl
        | some q => simp

theorem locked_exec_eq [DecidableEq Key] (M : Mutex) (hM : M.Lawful) (capacity : Nat)
    (ops : List (Op Key Val)) :
    ∃ ns : List Nat, ns.length = ops.length ∧ (∀ n ∈ ns, 0 < n) ∧
      Locked.exec M capacity ops =
        (exec capacity ops).map (fun r =>
          (({ cache := r.1, mutex_ := M.init } : Locked M Key Val), r.2,
            (ns.map (fun n => Event.lock :: (List.replicate n Event.access ++
              [Event.unlock]))).flatten)) := by
  rcases Nat.eq_zero_or_pos capacity with h0 | hp
  · subst h0
    refine ⟨List.replicate ops.length 1, by simp, ?_, ?_⟩
    · intro k hk
      rw [(List.mem_replicate.mp hk).2]; exact Nat.one_pos
    · simp [Locked.exec, Locked.ctor, LruCache.ctor, LruCache.ctor_build, exec_zero]
  · obtain ⟨ns, hlen, hpos, hrun⟩ :=
      locked_run_eq M hM ({ capacity_ := capacity, container_ := [] } : LruCache Key Val) ops
    refine ⟨ns, hlen, hpos, ?_⟩
    simp only [Locked.exec, Locked.ctor, ctor_pos capacity hp, exec_pos capacity hp, hrun]

/-- C18, lock substitutability: for any two lawful locks, a cache of the same capacity and the
same sequence of calls by one thread give the same results and the same last state of
`capacity_` and `container_`, namely those of the calls without a lock; with a positive
capacity both runs return. -/
theorem lock_substitutable [DecidableEq Key] (M1 M2 : Mutex) (h1 : M1.Lawful) (h2 : M2.Lawful)
    (capacity : Nat) (ops : List (Op Key Val)) :
    (Locked.exec M1 capacity ops).map (fun r => (r.1.cache, r.2.1)) =
      (Locked.exec M2 capacity ops).map (fun r => (r.1.cache, r.2.1)) ∧
    (Locked.exec M1 capacity ops).map (fun r => (r.1.cache, r.2.1)) = exec capacity ops ∧
    (0 < capacity → ∃ s tr, exec capacity ops = some (s, tr) ∧
      (Locked.exec M1 capacity ops).map (fun r => (r.1.cache, r.2.1)) = some (s, tr) ∧
      (Locked.exec M2 capacity ops).map (fun r => (r.1.cache, r.2.1)) = some (s, tr)) := by
  have key : ∀ M : Mutex, M.Lawful →
      (Locked.exec M capacity ops).map (fun r => (r.1.cache, r.2.1)) = exec capacity ops := by
    intro M hM
    obtain ⟨ns, _, _, hexec⟩ := locked_exec_eq M hM capacity ops
    rw [hexec]
    cases exec capacity ops with
    | none => rfl
    | some p => rfl
  refine ⟨by rw [key M1 h1, key M2 h2], key M1 h1, ?_⟩
  intro hp
  obtain ⟨s, tr, h, _⟩ := reachable_run capacity hp ops
  exact ⟨s, tr, h, by rw [key M1 h1, h], by rw [key M2 h2, h]⟩

theorem lock_substitutable_witness :
    null_mutex.Lawful ∧ std_mutex.Lawful ∧
    (Locked.exec null_mutex 2 ([.set 1 10, .set 2 20, .get 1, .set 3 30, .erase 1, .get 2] :
        List (Op Nat Nat))).map (fun r => (r.1.cache, r.2.1)) =
      (Locked.exec std_mutex 2 ([.set 1 10, .set 2 20, .get 1, .set 3 30, .erase 1, .get 2] :
        List (Op Nat Nat))).map (fun r => (r.1.cache, r.2.1)) :=
  ⟨null_mutex_lawful, std_mutex_lawful,
    (lock_substitutable null_mutex std_mutex null_mutex_lawful std_mutex_lawful 2 _).1⟩

/-! ## Returned values -/

theorem lastSet_snoc [DecidableEq Key] (tr : List (Op Key Val × Res Val))
    (x : Op Key Val × Res Val) (key : Key) :
    lastSet (tr ++ [x]) key = lastSetRev key (x :: tr.reverse) := by
  simp [lastSet]

theorem lastSet_snoc_set [DecidableEq Key] (tr : List (Op Key Val × Res Val)) (k : Key) (v : Val)
    (r : Res Val) (key : Key) :
    lastSet (tr ++ [(Op.set k v, r)]) key = if k = key then some v else lastSet tr key := by
  rw [lastSet_snoc]; rfl

theorem lastSet_snoc_get [DecidableEq Key] (tr : List (Op Key Val × Res Val)) (k : Key)
    (r : Res Val) (key : Key) :
    lastSet (tr ++ [(Op.get k, r)]) key = lastSet tr key := by
  rw [lastSet_snoc]; rfl

theorem lastSet_snoc_erase [DecidableEq Key] (tr : List (Op Key Val × Res Val)) (k : Key)
    (r : Res Val) (key : Key) :
    lastSet (tr ++ [(Op.erase k, r)]) key = if k = key then none else lastSet tr key := by
  rw [lastSet_snoc]; rfl

/-- A call keeps each relation of the container equal to the latest `set` on its key. -/
theorem step_live [DecidableEq Key] {s s' : LruCache Key Val} (hs : Inv s)
    {tr : List (Op Key Val × Res Val)} (h : ∀ e ∈ s.container_, lastSet tr e.1 = some e.2)
    (op : Op Key Val) (r : Res Val) (hstep : step s op = some (s', r)) :
    ∀ e ∈ s'.container_, lastSet (tr ++ [(op, r)]) e.1 = some e.2 := by
  cases op with
  | set key val =>
    have htouch : ∀ rest : Container Key Val, (∀ e ∈ rest, e ∈ s.container_ ∧ e.1 ≠ key) →
        ∀ e ∈ (key, val) :: rest, lastSet (tr ++ [(Op.set key val, r)]) e.1 = some e.2 := by
      intro rest hrest e he
      rw [lastSet_snoc_set]
      rcases List.mem_cons.mp he with he | he
      · rw [he]; simp
      · rw [if_neg (fun hk => (hrest e he).2 hk.symm)]
        exact h e (hrest e he).1
    rcases set_cases hs key val with ⟨pre, v0, post, hm, hset⟩ | ⟨habs, _, hset⟩ |
        ⟨habs, _, rest, victim, hm, hset⟩
    all_goals
      simp only [step, hset, Option.some.injEq, Prod.mk.injEq] at hstep
      obtain ⟨hs', _⟩ := hstep
      subst hs'
    · refine htouch (pre ++ post) ?_
      intro e he
      refine ⟨hm ▸ (split_sublist pre post (key, v0)).subset he, ?_⟩
      rcases List.mem_append.mp he with he | he
      · exact (hs.split hm).1 e he
      · exact (hs.split hm).2 e he
    · exact htouch s.container_ (fun e he => ⟨he, habs e he⟩)
    · refine htouch rest ?_
      intro e he
      have hmem : e ∈ s.container_ := by rw [hm]; simp [he]
      exact ⟨hmem, habs e hmem⟩
  | get key =>
    rcases get_cases hs key with ⟨pre, v0, post, hm, hget⟩ | ⟨_, hget⟩
    all_goals
      simp only [step, hget, Option.some.injEq, Prod.mk.injEq] at hstep
      obtain ⟨hs', _⟩ := hstep
      subst hs'
      intro e he
      rw [lastSet_snoc_get]
    · refine h e ?_
      rw [hm]
      rcases List.mem_cons.mp he with he | he
      · rw [he]; simp
      · exact (split_sublist pre post (key, v0)).subset he
    · exact h e he
  | erase key =>
    rcases erase_cases hs key with ⟨pre, v0, post, hm, he⟩ | ⟨habs, he⟩
    all_goals
      simp only [step, he, Option.some.injEq, Prod.mk.injEq] at hstep
      obtain ⟨hs', _⟩ := hstep
      subst hs'
      intro e hmem
      rw [lastSet_snoc_erase]
    · have hne : e.1 ≠ key := by
        rcases List.mem_append.mp hmem with hmem | hmem
        · exact (hs.split hm).1 e hmem
        · exact (hs.split hm).2 e hmem
      rw [if_neg (fun hk => hne hk.symm)]
      exact h e (hm ▸ (split_sublist pre post (key, v0)).subset hmem)
    · rw [if_neg (fun hk => habs e hmem hk.symm)]
      exact h e hmem
  | clear =>
    simp only [step, Option.some.injEq, Prod.mk.injEq] at hstep
    obtain ⟨hs', _⟩ := hstep
    subst hs'
    intro e he
    simp [LruCache.clear, Container.clear] at he

theorem run_live [DecidableEq Key] (ops : List (Op Key Val)) {s s' : LruCache Key Val}
    (hs : Inv s) {tr0 tr : List (Op Key Val × Res Val)}
    (h : ∀ e ∈ s.container_, lastSet tr0 e.1 = some e.2) (hrun : run s ops = some (s', tr)) :
    ∀ pre key val post, tr = pre ++ (Op.get key, Res.value (some val)) :: post →
      lastSet (tr0 ++ pre) key = some val := by
  induction ops generalizing s tr0 tr with
  | nil =>
    simp only [run, Option.some.injEq, Prod.mk.injEq] at hrun
    intro pre key val post htr
    rw [← hrun.2] at htr
    simp at htr
  | cons op ops ih =>
    obtain ⟨s1, r, h1, hi1, _⟩ := step_inv hs op
    cases h2 : run s1 ops with
    | none => simp [run, h1, h2] at hrun
    | some p =>
      obtain ⟨s2, tr2⟩ := p
      simp only [run, h1, h2, Option.some.injEq, Prod.mk.injEq] at hrun
      obtain ⟨h3, h4⟩ := hrun
      subst h3 h4
      intro pre key val post htr
      cases pre with
      | nil =>
        simp only [List.nil_append, List.cons.injEq, Prod.mk.injEq] at htr
        obtain ⟨⟨hop, hr⟩, _⟩ := htr
        subst hop hr
        simp only [step, Option.some.injEq, Prod.mk.injEq, Res.value.injEq] at h1
        rw [List.append_nil]
        rcases get_cases hs key with ⟨pre', v0, post', hm, hget⟩ | ⟨_, hget⟩
        · rw [hget] at h1
          have hv : v0 = val := Option.some.inj h1.2
          subst hv
          exact h (key, v0) (by rw [hm]; simp)
        · rw [hget] at h1
          exact absurd h1.2 (by simp)
      | cons x pre' =>
        simp only [List.cons_append, List.cons.injEq] at htr
        obtain ⟨hx, htr'⟩ := htr
        subst hx
        have := ih hi1 (step_live hs h op r h1) h2 pre' key val post htr'
        simpa using this

theorem lastSetRev_some [DecidableEq Key] (key : Key) (l : List (Op Key Val × Res Val))
    (val : Val) (h : lastSetRev key l = some val) :
    ∃ newer older r, l = newer ++ (Op.set key val, r) :: older ∧
      ∀ x ∈ newer, x.1 ≠ Op.clear ∧ x.1 ≠ Op.erase key ∧ ∀ v, x.1 ≠ Op.set key v := by
  induction l with
  | nil => simp [lastSetRev] at h
  | cons x older ih =>
    obtain ⟨op, r⟩ := x
    cases op with
    | set k v =>
      by_cases hk : k = key
      · simp only [lastSetRev, hk, if_true, Option.some.injEq] at h
        subst hk h
        exact ⟨[], older, r, rfl, by simp⟩
      · simp only [lastSetRev, hk, if_false] at h
        obtain ⟨newer, older', r', hl, hq⟩ := ih h
        refine ⟨(Op.set k v, r) :: newer, older', r', by simp [hl], ?_⟩
        intro x hx
        rcases List.mem_cons.mp hx with hx | hx
        · subst hx
          exact ⟨by simp, by simp, fun v' => by simp [hk]⟩
        · exact hq x hx
    | get k =>
      simp only [lastSetRev] at h
      obtain ⟨newer, older', r', hl, hq⟩ := ih h
      refine ⟨(Op.get k, r) :: newer, older', r', by simp [hl], ?_⟩
      intro x hx
      rcases List.mem_cons.mp hx with hx | hx
      · subst hx
        exact ⟨by simp, by simp, fun v' => by simp⟩
      · exact hq x hx
    | erase k =>
      by_cases hk : k = key
      · simp [lastSetRev, hk] at h
      · simp only [lastSetRev, hk, if_false] at h
        obtain ⟨newer, older', r', hl, hq⟩ := ih h
        refine ⟨(Op.erase k, r) :: newer, older', r', by simp [hl], ?_⟩
        intro x hx
        rcases List.mem_cons.mp hx with hx | hx
        · subst hx
          exact ⟨by simp, by simp [hk], fun v' => by simp⟩
        · exact hq x hx
    | clear => simp [lastSetRev] at h

/-- C20, no stale or foreign values: in the trace of any sequence of calls on a cache
constructed with a positive capacity, whenever a `get key` returns a value `val`, an earlier
call of the trace is `set key val` and none of the calls between that `set` and the `get` is a
`clear`, an `erase key` or another `set` on `key`. -/
theorem no_stale_values [DecidableEq Key] (capacity : Nat) (hcap : 0 < capacity)
    (ops : List (Op Key Val)) (s : LruCache Key Val) (tr : List (Op Key Val × Res Val))
    (h : exec capacity ops = some (s, tr)) (pre post : List (Op Key Val × Res Val))
    (key : Key) (val : Val) (hget : tr = pre ++ (Op.get key, Res.value (some val)) :: post) :
    ∃ before between r, pre = before ++ (Op.set key val, r) :: between ∧
      ∀ x ∈ between, x.1 ≠ Op.clear ∧ x.1 ≠ Op.erase key ∧ ∀ v, x.1 ≠ Op.set key v := by
  rw [exec_pos capacity hcap] at h
  have hlast := run_live ops (inv_new capacity hcap)
    (show ∀ e ∈ ({ capacity_ := capacity, container_ := [] } : LruCache Key Val).container_,
      lastSet ([] : List (Op Key Val × Res Val)) e.1 = some e.2 from fun e he => by simp at he)
    h pre key val post hget
  rw [List.nil_append] at hlast
  obtain ⟨newer, older, r, hl, hq⟩ := lastSetRev_some key pre.reverse val hlast
  refine ⟨older.reverse, newer.reverse, r, ?_, fun x hx => hq x (List.mem_reverse.mp hx)⟩
  have := congrArg List.reverse hl
  simpa using this

theorem no_stale_values_witness :
    0 < 2 ∧
    ∃ before between r,
      ([(.set 1 10, .unit), (.set 2 20, .unit), (.set 1 11, .unit), (.erase 2, .erased true)] :
        List (Op Nat Nat × Res Nat)) = before ++ (Op.set 1 11, r) :: between ∧
      ∀ x ∈ between, x.1 ≠ Op.clear ∧ x.1 ≠ Op.erase 1 ∧ ∀ v, x.1 ≠ Op.set 1 v :=
  ⟨by decide, no_stale_values 2 (by decide)
    ([.set 1 10, .set 2 20, .set 1 11, .erase 2, .get 1, .get 2] : List (Op Nat Nat))
    ⟨2, [(1, 11)]⟩
    [(.set 1 10, .unit), (.set 2 20, .unit), (.set 1 11, .unit), (.erase 2, .erased true),
     (.get 1, .value (some 11)), (.get 2, .value none)]
    (by rfl)
    [(.set 1 10, .unit), (.set 2 20, .unit), (.set 1 11, .unit), (.erase 2, .erased true)]
    [(.get 2, .value none)] 1 11 rfl⟩

end shootout
